import Mathlib

/-!
Verification of the GitHub permission-synchronization provider
(enterprise/internal/authz/github/github.go).

The provider resolves, against a paginated directory client, the set of
private repositories a user account can read (FetchUserPerms) and the set of
accounts that can read a repository (FetchRepoPerms), combining direct
affiliations with organization/team ("group") derived access serviced through
an in-memory group cache.

Modelling choices:
* A paginated endpoint response is a list of pages; a page is `some items`
  (success, `hasNextPage` is encoded by the list not being exhausted) or
  `none` (the call for that page fails and yields no items).
* The group cache is threaded explicitly as a value; a disabled cache
  (`groupsCacheTTL <= 0`) is `Option.none`.
* Every directory-client call is recorded in a trace, tagged with the
  credential it was issued under (`Cred.base` for the provider's own token,
  `Cred.user tok` for a client rescoped to a user token), and every cache
  write performed while processing groups is recorded in a write log.
-/

abbrev RepoID := String
abbrev AccountID := String

/-- A repository item as returned by listing endpoints (github.Repository). -/
structure Repository where
  ID : String
deriving DecidableEq

/-- A collaborator / member item (github.Collaborator); its account id is the
decimal rendering of `DatabaseID`. -/
structure Collaborator where
  DatabaseID : Int
deriving DecidableEq

/-- Reference to an organization carried on a team (github.Team.Organization). -/
structure OrgRef where
  Login : String
deriving DecidableEq

/-- A team item (github.Team). -/
structure Team where
  Slug : String
  ReposCount : Int
  Organization : Option OrgRef
deriving DecidableEq

/-- Modelled from the spec: organization details expose the organization-wide
default repository permission, "a visibility policy exposed by the code host"
controlling whether ordinary members can read all of the organization's
repositories (the OrgDetails type is not part of the sources).
`DefaultCanRead` is true when that default permission grants read to all
members. -/
structure OrgDetails where
  Login : String
  DefaultCanRead : Bool
deriving DecidableEq

/-- Organization details together with the caller's membership
(github.OrgDetailsAndMembership); only the details part is consulted by the
spec's visibility policy. -/
structure OrgDetailsAndMembership where
  OrgDetails : OrgDetails
deriving DecidableEq

/-- Modelled from the spec: an organization counts as wholly readable exactly
when "its default repository permission grants read to all members"
(the canViewOrgRepos helper is not part of the sources). -/
def canViewOrgRepos (org : OrgDetailsAndMembership) : Bool :=
  org.OrgDetails.DefaultCanRead

/-- The credential a directory-client call is issued under. -/
inductive Cred where
  | base : Cred
  | user : String → Cred
deriving DecidableEq

/-- One directory-client call, as recorded in the trace: the constructor is
the endpoint, the arguments are the credential, the endpoint parameters and
the 1-based page number. -/
inductive ApiCall where
  | ListAffiliatedRepositories : Cred → List String → Nat → ApiCall
  | ListOrgRepositories : Cred → String → String → Nat → ApiCall
  | ListTeamRepositories : Cred → String → String → Nat → ApiCall
  | ListRepositoryCollaborators : Cred → String → String → String → Nat → ApiCall
  | ListOrganizationMembers : Cred → String → Bool → Nat → ApiCall
  | ListTeamMembers : Cred → String → String → Nat → ApiCall
  | GetOrganization : Cred → String → ApiCall
  | GetAuthenticatedUserOrgsDetailsAndMembership : Cred → Nat → ApiCall
  | GetAuthenticatedUserTeams : Cred → Nat → ApiCall
  | ListRepositoryTeams : Cred → String → String → Nat → ApiCall
deriving DecidableEq

/-- The successive page responses a paginated endpoint yields: `some items`
is a successful page (pagination continues while further responses remain),
`none` is a failing call contributing no items. -/
abbrev Paged (α : Type) := List (Option (List α))

/-- Failure of an organization lookup: a not-found response or any other
error (github.IsNotFound distinguishes them). -/
inductive LookupErr where
  | notFound : LookupErr
  | other : LookupErr
deriving DecidableEq

/-- The abstract paginated directory client (the `client` interface): each
listing endpoint maps a credential and its parameters to the sequence of page
responses it would serve. -/
structure DirClient where
  ListAffiliatedRepositories : Cred → List String → Paged Repository
  ListOrgRepositories : Cred → String → String → Paged Repository
  ListTeamRepositories : Cred → String → String → Paged Repository
  ListRepositoryCollaborators : Cred → String → String → String → Paged Collaborator
  ListOrganizationMembers : Cred → String → Bool → Paged Collaborator
  ListTeamMembers : Cred → String → String → Paged Collaborator
  GetOrganization : Cred → String → Except LookupErr OrgDetails
  GetAuthenticatedUserOrgsDetailsAndMembership : Cred → Paged OrgDetailsAndMembership
  GetAuthenticatedUserTeams : Cred → Paged Team
  ListRepositoryTeams : Cred → String → String → Paged Team

/-- A cached group: an organization (Team = "") or a team, with the
repositories and users known to be affiliated with it (cache.go's cachedGroup;
field layout as used by github.go). -/
structure cachedGroup where
  Org : String
  Team : String
  Repositories : List RepoID
  Users : List AccountID
deriving DecidableEq

/-- Modelled from the spec: a Group's cache key is "derived from
(organization, team)" (cache.go is not part of the sources). -/
def cachedGroup.key (g : cachedGroup) : String :=
  if g.Team = "" then g.Org else g.Org ++ "/" ++ g.Team

/-- The group cache contents: the stored group records, keyed by (Org, Team).
TTL expiry is not modelled; entries present are the currently valid ones. -/
abbrev GroupsCache := List cachedGroup

/-- Modelled from the spec: `get(org, team)` "returns the stored record or an
empty, newly-keyed Group if absent" together with whether it existed
(cache.go is not part of the sources). -/
def getGroup : GroupsCache → String → String → cachedGroup × Bool
  | [], org, team => (⟨org, team, [], []⟩, false)
  | g :: rest, org, team =>
    if g.Org = org ∧ g.Team = team then (g, true) else getGroup rest org team

/-- Modelled from the spec: `set(Group)` "upserts the full record"
(cache.go is not part of the sources). -/
def setGroup : GroupsCache → cachedGroup → GroupsCache
  | [], g => [g]
  | h :: rest, g =>
    if h.Org = g.Org ∧ h.Team = g.Team then g :: rest else h :: setGroup rest g

/-- Modelled from the spec: `invalidate(Group)` "clears repository/user fields
for a record, forcing the next consumer to re-enumerate"; returns the updated
cache together with the cleared record handed back to the caller
(cache.go is not part of the sources). -/
def invalidateGroup (cache : GroupsCache) (g : cachedGroup) :
    GroupsCache × cachedGroup :=
  let g' := { g with Repositories := [], Users := [] }
  (setGroup cache g', g')

/-- An affiliated group discovered for a repository: a cached group plus
whether the affiliation is admins-only (repoAffiliatedGroup). -/
structure repoAffiliatedGroup where
  toCachedGroup : cachedGroup
  adminsOnly : Bool
deriving DecidableEq

/-- Per-call fetch options (authz.FetchPermsOptions). -/
structure FetchPermsOptions where
  InvalidateCaches : Bool
deriving DecidableEq

/-- The provider (Provider struct): code-host identity, directory client and
the optional group cache (none when caching is disabled). -/
structure Provider where
  urn : String
  serviceID : String
  serviceType : String
  hostname : String
  client : DirClient
  groupsCache : Option GroupsCache

/-- An external account (extsvc.Account restricted to the fields consulted):
its id, the code host it belongs to, and the stored credential token, if any. -/
structure Account where
  AccountID : String
  ServiceID : String
  ServiceType : String
  Token : Option String
deriving DecidableEq

/-- An external repository (extsvc.Repository restricted to the fields
consulted). -/
structure ExtRepository where
  ID : String
  URI : String
  ServiceID : String
  ServiceType : String
deriving DecidableEq

/-- Modelled from the spec: "account must belong to the code host this
provider serves" (extsvc.IsHostOfAccount is not part of the sources). -/
def IsHostOfAccount (p : Provider) (a : Account) : Prop :=
  a.ServiceID = p.serviceID ∧ a.ServiceType = p.serviceType

instance (p : Provider) (a : Account) : Decidable (IsHostOfAccount p a) :=
  inferInstanceAs (Decidable (_ ∧ _))

/-- Modelled from the spec: the repository must belong to the code host this
provider serves (extsvc.IsHostOfRepo is not part of the sources). -/
def IsHostOfRepo (p : Provider) (r : ExtRepository) : Prop :=
  r.ServiceID = p.serviceID ∧ r.ServiceType = p.serviceType

instance (p : Provider) (r : ExtRepository) : Decidable (IsHostOfRepo p r) :=
  inferInstanceAs (Decidable (_ ∧ _))

deriving instance DecidableEq for Except

/-- Go strings.TrimPrefix: drop the prefix when present, else return the
string unchanged (computed on the character list so it is kernel-evaluable). -/
def goTrim (s pre : String) : String :=
  if pre.data.isPrefixOf s.data then ⟨s.data.drop pre.data.length⟩ else s

/-- Split a character list at its first slash, when one is present. -/
def splitFirstSlash : List Char → Option (List Char × List Char)
  | [] => none
  | c :: rest =>
    if c = '/' then some ([], rest)
    else
      match splitFirstSlash rest with
      | none => none
      | some (a, b) => some (c :: a, b)

/-- Modelled from the spec: split a fully-qualified "owner/name" at its first
slash, failing when no slash is present
(github.SplitRepositoryNameWithOwner is not part of the sources). -/
def SplitRepositoryNameWithOwner (s : String) : Except String (String × String) :=
  match splitFirstSlash s.data with
  | none => .error "invalid repo name"
  | some (a, b) => .ok (⟨a⟩, ⟨b⟩)

/-- Run a pagination loop: one call per consumed page response (recorded via
`mk` at the 1-based page number), folding successful pages into the state and
stopping with `true` at the first failing page. -/
def runPages {α σ : Type} (mk : Nat → ApiCall) (step : σ → List α → σ) :
    Paged α → Nat → σ → List ApiCall → σ × List ApiCall × Bool
  | [], _, s, tr => (s, tr, false)
  | none :: _, n, s, tr => (s, tr ++ [mk n], true)
  | some xs :: rest, n, s, tr => runPages mk step rest (n + 1) (step s xs) (tr ++ [mk n])

/-- addRepoToUserPerms: add each repository id to the accumulated permissions
unless it is already tracked. -/
def addRepoToUserPerms (perms : List RepoID) (repos : List RepoID) : List RepoID :=
  repos.foldl (fun acc repo => if repo ∈ acc then acc else acc ++ [repo]) perms

/-- addUserToRepoPerms: add each account id to the accumulated permissions
unless it is already tracked. -/
def addUserToRepoPerms (userIDs : List AccountID) (users : List AccountID) : List AccountID :=
  users.foldl (fun acc user => if user ∈ acc then acc else acc ++ [user]) userIDs

/-- Result of processing a (list of) group(s): the accumulated identifiers,
the updated cache, the calls made, the cache writes performed, and the error,
if any. -/
structure GroupStepResult (α : Type) where
  acc : List α
  cache : GroupsCache
  trace : List ApiCall
  writes : List cachedGroup
  err : Option String
deriving DecidableEq

/-- Result of group discovery (getUserAffiliatedGroups /
getRepoAffiliatedGroups). -/
structure DiscoveryResult (γ : Type) where
  groups : List γ
  cache : GroupsCache
  trace : List ApiCall
  err : Option String
deriving DecidableEq

/-- Result of FetchUserPerms: the repository ids (none on a fail-fast path),
the error, the cache left behind, the trace and the group-cache writes. -/
structure UserPermsResult where
  perms : Option (List RepoID)
  err : Option String
  cache : Option GroupsCache
  trace : List ApiCall
  writes : List cachedGroup
deriving DecidableEq

/-- Result of FetchRepoPerms, mirroring `UserPermsResult`. -/
structure RepoPermsResult where
  users : Option (List AccountID)
  err : Option String
  cache : Option GroupsCache
  trace : List ApiCall
  writes : List cachedGroup
deriving DecidableEq

/-- syncGroup closure of getUserAffiliatedGroups: skip a team already seen
(the check is on the bare team slug, against stored `key()` values), else pull
the group from cache, optionally invalidating it, record its key as seen and
append it. -/
def syncUserGroup (cache : GroupsCache) (seen : List String)
    (groups : List cachedGroup) (invalidate : Bool) (org team : String) :
    GroupsCache × List String × List cachedGroup :=
  if team ≠ "" ∧ team ∈ seen then (cache, seen, groups)
  else
    let ge := getGroup cache org team
    let ci := if ge.2 ∧ invalidate then invalidateGroup cache ge.1 else (cache, ge.1)
    (ci.1, seen ++ [ci.2.key], groups ++ [ci.2])

/-- getUserAffiliatedGroups: enumerate the user's organizations (keeping those
whose repositories the user can view wholesale) and then the user's teams
(keeping teams with at least one repository and a parent organization),
pulling each group from the cache. -/
def getUserAffiliatedGroups (client : DirClient) (cred : Cred)
    (cache : GroupsCache) (invalidate : Bool) : DiscoveryResult cachedGroup :=
  let s0 : GroupsCache × List String × List cachedGroup := (cache, [], [])
  let orgStep := fun (s : GroupsCache × List String × List cachedGroup)
      (orgs : List OrgDetailsAndMembership) =>
    orgs.foldl (fun s o =>
      if canViewOrgRepos o then
        syncUserGroup s.1 s.2.1 s.2.2 invalidate o.OrgDetails.Login ""
      else s) s
  let r1 := runPages (fun n => .GetAuthenticatedUserOrgsDetailsAndMembership cred n)
    orgStep (client.GetAuthenticatedUserOrgsDetailsAndMembership cred) 1 s0 []
  if r1.2.2 then
    { groups := r1.1.2.2, cache := r1.1.1, trace := r1.2.1, err := some "get user orgs" }
  else
    let teamStep := fun (s : GroupsCache × List String × List cachedGroup)
        (teams : List Team) =>
      teams.foldl (fun s t =>
        match t.Organization with
        | some o =>
          if t.ReposCount > 0 then
            syncUserGroup s.1 s.2.1 s.2.2 invalidate o.Login t.Slug
          else s
        | none => s) s
    let r2 := runPages (fun n => .GetAuthenticatedUserTeams cred n) teamStep
      (client.GetAuthenticatedUserTeams cred) 1 r1.1 r1.2.1
    { groups := r2.1.2.2, cache := r2.1.1, trace := r2.2.1,
      err := if r2.2.2 then some "get user teams" else none }

/-- The body of the per-group loop of fetchUserPermsByToken: add the account
to a partially cached member set, use a cached repository set when available,
otherwise enumerate the org's/team's repositories with the base client and
persist the group only on full success. -/
def processUserGroup (client : DirClient) (accountID : AccountID)
    (perms : List RepoID) (cache : GroupsCache) (g : cachedGroup) :
    GroupStepResult RepoID :=
  let self :=
    if g.Users ≠ [] ∧ accountID ∉ g.Users then
      let g' := { g with Users := g.Users ++ [accountID] }
      (g', setGroup cache g', [g'])
    else (g, cache, ([] : List cachedGroup))
  let g1 := self.1
  let cache1 := self.2.1
  let writes1 := self.2.2
  if g1.Repositories ≠ [] then
    { acc := addRepoToUserPerms perms g1.Repositories, cache := cache1,
      trace := [], writes := writes1, err := none }
  else
    let isOrg := g1.Team = ""
    let pages :=
      if isOrg then client.ListOrgRepositories Cred.base g1.Org ""
      else client.ListTeamRepositories Cred.base g1.Org g1.Team
    let mk : Nat → ApiCall := fun n =>
      if isOrg then .ListOrgRepositories Cred.base g1.Org "" n
      else .ListTeamRepositories Cred.base g1.Org g1.Team n
    let r := runPages mk
      (fun (s : List RepoID × List RepoID) xs =>
        let ids := xs.map Repository.ID
        (s.1 ++ ids, addRepoToUserPerms s.2 ids))
      pages 1 ([], perms) []
    if r.2.2 then
      { acc := r.1.2, cache := cache1, trace := r.2.1, writes := writes1,
        err := some "list repos for group" }
    else
      let g2 := { g1 with Repositories := r.1.1 }
      { acc := r.1.2, cache := setGroup cache1 g2, trace := r.2.1,
        writes := writes1 ++ [g2], err := none }

/-- The per-group loop of fetchUserPermsByToken over all discovered groups,
stopping at the first group whose enumeration fails. -/
def processUserGroups (client : DirClient) (accountID : AccountID) :
    List cachedGroup → List RepoID → GroupsCache → GroupStepResult RepoID
  | [], perms, cache =>
    { acc := perms, cache := cache, trace := [], writes := [], err := none }
  | g :: rest, perms, cache =>
    let r := processUserGroup client accountID perms cache g
    match r.err with
    | some e =>
      { acc := r.acc, cache := r.cache, trace := r.trace, writes := r.writes,
        err := some e }
    | none =>
      let r' := processUserGroups client accountID rest r.acc r.cache
      { acc := r'.acc, cache := r'.cache, trace := r.trace ++ r'.trace,
        writes := r.writes ++ r'.writes, err := r'.err }

/-- fetchUserPermsByToken: enumerate direct affiliations with a client scoped
to the user's token (owner+collaborator kinds when group caching is enabled,
all kinds otherwise), then, with caching enabled, resolve the user's groups
and merge their repositories. -/
def fetchUserPermsByToken (p : Provider) (accountID : AccountID) (token : String)
    (opts : FetchPermsOptions) : UserPermsResult :=
  let cred : Cred := .user token
  let affiliations : List String :=
    if p.groupsCache.isSome then ["owner", "collaborator"] else []
  let r1 := runPages (fun n => .ListAffiliatedRepositories cred affiliations n)
    (fun acc xs => addRepoToUserPerms acc (xs.map Repository.ID))
    (p.client.ListAffiliatedRepositories cred affiliations) 1 [] []
  if r1.2.2 then
    { perms := some r1.1, err := some "list repos for user",
      cache := p.groupsCache, trace := r1.2.1, writes := [] }
  else
    match p.groupsCache with
    | none =>
      { perms := some r1.1, err := none, cache := none, trace := r1.2.1, writes := [] }
    | some cache =>
      let d := getUserAffiliatedGroups p.client cred cache opts.InvalidateCaches
      match d.err with
      | some e =>
        { perms := some r1.1, err := some e, cache := some d.cache,
          trace := r1.2.1 ++ d.trace, writes := [] }
      | none =>
        let r := processUserGroups p.client accountID d.groups r1.1 d.cache
        { perms := some r.acc, err := r.err, cache := some r.cache,
          trace := r1.2.1 ++ d.trace ++ r.trace, writes := r.writes }

/-- FetchUserPerms: precondition checks (account present, code host matches,
token present), then fetchUserPermsByToken. -/
def FetchUserPerms (p : Provider) (account : Option Account)
    (opts : FetchPermsOptions) : UserPermsResult :=
  match account with
  | none =>
    { perms := none, err := some "no account provided", cache := p.groupsCache,
      trace := [], writes := [] }
  | some a =>
    if IsHostOfAccount p a then
      match a.Token with
      | none =>
        { perms := none, err := some "no token found in the external account data",
          cache := p.groupsCache, trace := [], writes := [] }
      | some tok => fetchUserPermsByToken p a.AccountID tok opts
    else
      { perms := none, err := some "not a code host of the account",
        cache := p.groupsCache, trace := [], writes := [] }

/-- syncGroup closure of getRepoAffiliatedGroups: pull the group from cache,
optionally invalidating it, and append it tagged with the admins-only flag. -/
def syncRepoGroup (cache : GroupsCache) (groups : List repoAffiliatedGroup)
    (invalidate : Bool) (owner team : String) (adminsOnly : Bool) :
    GroupsCache × List repoAffiliatedGroup :=
  let ge := getGroup cache owner team
  let ci := if ge.2 ∧ invalidate then invalidateGroup cache ge.1 else (cache, ge.1)
  (ci.1, groups ++ [{ toCachedGroup := ci.2, adminsOnly := adminsOnly }])

/-- getRepoAffiliatedGroups: resolve the repository's owning organization
(not-found means no organization affiliation and no error); a read-all
organization yields the single whole-org group, otherwise the org is
registered admins-only together with each team of the repository. -/
def getRepoAffiliatedGroups (client : DirClient) (cache : GroupsCache)
    (owner name : String) (invalidate : Bool) : DiscoveryResult repoAffiliatedGroup :=
  let tr0 := [ApiCall.GetOrganization Cred.base owner]
  match client.GetOrganization Cred.base owner with
  | .error .notFound => { groups := [], cache := cache, trace := tr0, err := none }
  | .error .other =>
    { groups := [], cache := cache, trace := tr0, err := some "get organization" }
  | .ok org =>
    if canViewOrgRepos { OrgDetails := org } then
      let s := syncRepoGroup cache [] invalidate owner "" false
      { groups := s.2, cache := s.1, trace := tr0, err := none }
    else
      let s := syncRepoGroup cache [] invalidate owner "" true
      let r := runPages (fun n => .ListRepositoryTeams Cred.base owner name n)
        (fun (st : GroupsCache × List repoAffiliatedGroup) ts =>
          ts.foldl (fun st t => syncRepoGroup st.1 st.2 invalidate owner t.Slug false) st)
        (client.ListRepositoryTeams Cred.base owner name) 1 s []
      { groups := r.1.2, cache := r.1.1, trace := tr0 ++ r.2.1,
        err := if r.2.2 then some "list teams for repo" else none }

/-- The body of the per-group loop of FetchRepoPerms: add the repository to a
partially cached repository set, use a cached member set when available,
otherwise enumerate the org's (honouring the admins-only flag) or team's
members and persist the group only on full success. -/
def processRepoGroup (client : DirClient) (owner : String) (repoID : RepoID)
    (userIDs : List AccountID) (cache : GroupsCache) (rg : repoAffiliatedGroup) :
    GroupStepResult AccountID :=
  let g := rg.toCachedGroup
  let self :=
    if g.Repositories ≠ [] ∧ repoID ∉ g.Repositories then
      let g' := { g with Repositories := g.Repositories ++ [repoID] }
      (g', setGroup cache g', [g'])
    else (g, cache, ([] : List cachedGroup))
  let g1 := self.1
  let cache1 := self.2.1
  let writes1 := self.2.2
  if g1.Users ≠ [] then
    { acc := addUserToRepoPerms userIDs g1.Users, cache := cache1,
      trace := [], writes := writes1, err := none }
  else
    let isOrg := g1.Team = ""
    let pages :=
      if isOrg then client.ListOrganizationMembers Cred.base owner rg.adminsOnly
      else client.ListTeamMembers Cred.base owner g1.Team
    let mk : Nat → ApiCall := fun n =>
      if isOrg then .ListOrganizationMembers Cred.base owner rg.adminsOnly n
      else .ListTeamMembers Cred.base owner g1.Team n
    let r := runPages mk
      (fun (s : List AccountID × List AccountID) xs =>
        let ids := xs.map (fun u => toString u.DatabaseID)
        (s.1 ++ ids, addUserToRepoPerms s.2 ids))
      pages 1 (g1.Users, userIDs) []
    if r.2.2 then
      { acc := r.1.2, cache := cache1, trace := r.2.1, writes := writes1,
        err := some "list users for group" }
    else
      let g2 := { g1 with Users := r.1.1 }
      { acc := r.1.2, cache := setGroup cache1 g2, trace := r.2.1,
        writes := writes1 ++ [g2], err := none }

/-- The per-group loop of FetchRepoPerms over all discovered groups, stopping
at the first group whose enumeration fails. -/
def processRepoGroups (client : DirClient) (owner : String) (repoID : RepoID) :
    List repoAffiliatedGroup → List AccountID → GroupsCache → GroupStepResult AccountID
  | [], userIDs, cache =>
    { acc := userIDs, cache := cache, trace := [], writes := [], err := none }
  | rg :: rest, userIDs, cache =>
    let r := processRepoGroup client owner repoID userIDs cache rg
    match r.err with
    | some e =>
      { acc := r.acc, cache := r.cache, trace := r.trace, writes := r.writes,
        err := some e }
    | none =>
      let r' := processRepoGroups client owner repoID rest r.acc r.cache
      { acc := r'.acc, cache := r'.cache, trace := r.trace ++ r'.trace,
        writes := r.writes ++ r'.writes, err := r'.err }

/-- FetchRepoPerms: precondition checks (repository present, code host
matches), owner/name resolution from the URI, direct-collaborator enumeration
("direct" affiliation when group caching is enabled, all affiliations
otherwise), then, with caching enabled, the repository's groups. -/
def FetchRepoPerms (p : Provider) (repo : Option ExtRepository)
    (opts : FetchPermsOptions) : RepoPermsResult :=
  match repo with
  | none =>
    { users := none, err := some "no repository provided", cache := p.groupsCache,
      trace := [], writes := [] }
  | some repo =>
    if IsHostOfRepo p repo then
      let nameWithOwner := goTrim (goTrim repo.URI p.hostname) "/"
      match SplitRepositoryNameWithOwner nameWithOwner with
      | .error _ =>
        { users := none, err := some "split nameWithOwner", cache := p.groupsCache,
          trace := [], writes := [] }
      | .ok (owner, name) =>
        let affiliation : String := if p.groupsCache.isSome then "direct" else ""
        let r1 := runPages
          (fun n => .ListRepositoryCollaborators Cred.base owner name affiliation n)
          (fun acc xs => addUserToRepoPerms acc (xs.map (fun u => toString u.DatabaseID)))
          (p.client.ListRepositoryCollaborators Cred.base owner name affiliation) 1 [] []
        if r1.2.2 then
          { users := some r1.1, err := some "list users for repo",
            cache := p.groupsCache, trace := r1.2.1, writes := [] }
        else
          match p.groupsCache with
          | none =>
            { users := some r1.1, err := none, cache := none, trace := r1.2.1,
              writes := [] }
          | some cache =>
            let d := getRepoAffiliatedGroups p.client cache owner name
              opts.InvalidateCaches
            match d.err with
            | some e =>
              { users := some r1.1, err := some e, cache := some d.cache,
                trace := r1.2.1 ++ d.trace, writes := [] }
            | none =>
              let r := processRepoGroups p.client owner repo.ID d.groups r1.1 d.cache
              { users := some r.acc, err := r.err, cache := some r.cache,
                trace := r1.2.1 ++ d.trace ++ r.trace, writes := r.writes }
    else
      { users := none, err := some "not a code host of the repository",
        cache := p.groupsCache, trace := [], writes := [] }

/-- Items delivered by the successful pages of a paginated response. -/
def pageItems {α : Type} (pages : Paged α) : List α :=
  pages.foldr (fun pg acc => pg.getD [] ++ acc) []

/-- All pages of a paginated response succeed. -/
def allOk {α : Type} (pages : Paged α) : Prop :=
  ∀ pg ∈ pages, pg ≠ none

instance {α : Type} [DecidableEq α] (pages : Paged α) : Decidable (allOk pages) :=
  inferInstanceAs (Decidable (∀ pg ∈ pages, pg ≠ none))

/-- The account ids of a list of collaborator items. -/
def accountIDs (users : List Collaborator) : List AccountID :=
  users.map (fun u => toString u.DatabaseID)

/-- A directory client returning nothing anywhere: every listing is an empty
page sequence and every organization lookup is a not-found response. Used as
the base of concrete test fixtures. -/
def emptyClient : DirClient where
  ListAffiliatedRepositories := fun _ _ => []
  ListOrgRepositories := fun _ _ _ => []
  ListTeamRepositories := fun _ _ _ => []
  ListRepositoryCollaborators := fun _ _ _ _ => []
  ListOrganizationMembers := fun _ _ _ => []
  ListTeamMembers := fun _ _ _ => []
  GetOrganization := fun _ _ => .error .notFound
  GetAuthenticatedUserOrgsDetailsAndMembership := fun _ => []
  GetAuthenticatedUserTeams := fun _ => []
  ListRepositoryTeams := fun _ _ _ => []

/-! ## Helper lemmas -/

theorem mem_dedupFold (x : String) :
    ∀ (rs acc : List String),
      x ∈ rs.foldl (fun a r => if r ∈ a then a else a ++ [r]) acc ↔ x ∈ acc ∨ x ∈ rs := by
  intro rs
  induction rs with
  | nil => intro acc; simp
  | cons r rs ih =>
    intro acc
    simp only [List.foldl_cons]
    by_cases hr : r ∈ acc
    · rw [if_pos hr, ih]
      constructor
      · rintro (h | h)
        · exact Or.inl h
        · exact Or.inr (List.mem_cons_of_mem _ h)
      · rintro (h | h)
        · exact Or.inl h
        · rcases List.mem_cons.mp h with rfl | h
          · exact Or.inl hr
          · exact Or.inr h
    · rw [if_neg hr, ih]
      simp only [List.mem_append, List.mem_singleton, List.mem_cons]
      tauto

theorem nodup_dedupFold :
    ∀ (rs acc : List String), acc.Nodup →
      (rs.foldl (fun a r => if r ∈ a then a else a ++ [r]) acc).Nodup := by
  intro rs
  induction rs with
  | nil => intro acc h; simpa using h
  | cons r rs ih =>
    intro acc h
    simp only [List.foldl_cons]
    by_cases hr : r ∈ acc
    · rw [if_pos hr]; exact ih acc h
    · rw [if_neg hr]
      apply ih
      simp [List.nodup_append, h, hr]

theorem mem_addRepoToUserPerms (x : String) (perms rs : List RepoID) :
    x ∈ addRepoToUserPerms perms rs ↔ x ∈ perms ∨ x ∈ rs := by
  simp only [addRepoToUserPerms]
  exact mem_dedupFold x rs perms

theorem nodup_addRepoToUserPerms (perms rs : List RepoID) (h : perms.Nodup) :
    (addRepoToUserPerms perms rs).Nodup := by
  simp only [addRepoToUserPerms]
  exact nodup_dedupFold rs perms h

theorem mem_addUserToRepoPerms (x : String) (userIDs us : List AccountID) :
    x ∈ addUserToRepoPerms userIDs us ↔ x ∈ userIDs ∨ x ∈ us := by
  simp only [addUserToRepoPerms]
  exact mem_dedupFold x us userIDs

theorem nodup_addUserToRepoPerms (userIDs us : List AccountID) (h : userIDs.Nodup) :
    (addUserToRepoPerms userIDs us).Nodup := by
  simp only [addUserToRepoPerms]
  exact nodup_dedupFold us userIDs h

theorem mem_pageItems {α : Type} {pages : Paged α} {xs : List α} {x : α}
    (hpg : some xs ∈ pages) (hx : x ∈ xs) : x ∈ pageItems pages := by
  induction pages with
  | nil => cases hpg
  | cons pg rest ih =>
    rcases List.mem_cons.mp hpg with rfl | h
    · simp [pageItems, hx]
    · simp only [pageItems, List.foldr_cons, List.mem_append]
      exact Or.inr (ih h)

theorem runPages_inv {α σ : Type} (mk : Nat → ApiCall) (step : σ → List α → σ)
    (P : σ → Prop) :
    ∀ (pages : Paged α) (n : Nat) (s : σ) (tr : List ApiCall),
      (∀ s' xs, some xs ∈ pages → P s' → P (step s' xs)) → P s →
      P (runPages mk step pages n s tr).1 := by
  intro pages
  induction pages with
  | nil => intro n s tr _ hs; simpa [runPages] using hs
  | cons pg rest ih =>
    intro n s tr hstep hs
    match pg with
    | none => simpa [runPages] using hs
    | some xs =>
      simp only [runPages]
      exact ih (n + 1) (step s xs) (tr ++ [mk n])
        (fun s' ys hmem => hstep s' ys (List.mem_cons_of_mem _ hmem))
        (hstep s xs (List.mem_cons_self _ _) hs)

theorem runPages_trace_inv {α σ : Type} (mk : Nat → ApiCall) (step : σ → List α → σ) :
    ∀ (pages : Paged α) (n : Nat) (s : σ) (tr : List ApiCall),
      ∀ c ∈ (runPages mk step pages n s tr).2.1, c ∈ tr ∨ ∃ m, c = mk m := by
  intro pages
  induction pages with
  | nil => intro n s tr c hc; exact Or.inl (by simpa [runPages] using hc)
  | cons pg rest ih =>
    intro n s tr c hc
    match pg with
    | none =>
      simp only [runPages] at hc
      rcases List.mem_append.mp hc with h | h
      · exact Or.inl h
      · exact Or.inr ⟨n, by simpa using h⟩
    | some xs =>
      simp only [runPages] at hc
      rcases ih (n + 1) (step s xs) (tr ++ [mk n]) c hc with h | h
      · rcases List.mem_append.mp h with h' | h'
        · exact Or.inl h'
        · exact Or.inr ⟨n, by simpa using h'⟩
      · exact Or.inr h

theorem runPages_allOk {α σ : Type} (mk : Nat → ApiCall) (step : σ → List α → σ) :
    ∀ (pages : Paged α) (n : Nat) (s : σ) (tr : List ApiCall), allOk pages →
      (runPages mk step pages n s tr).1
        = pages.foldl (fun s pg => step s (pg.getD [])) s ∧
      (runPages mk step pages n s tr).2.2 = false := by
  intro pages
  induction pages with
  | nil => intro n s tr _; simp [runPages]
  | cons pg rest ih =>
    intro n s tr hok
    match pg with
    | none => exact absurd rfl (hok none (List.mem_cons_self _ _))
    | some xs =>
      simp only [runPages, List.foldl_cons, Option.getD_some]
      exact ih (n + 1) (step s xs) (tr ++ [mk n])
        (fun p hp => hok p (List.mem_cons_of_mem _ hp))

theorem runPages_firstErr {α σ : Type} (mk : Nat → ApiCall) (step : σ → List α → σ) :
    ∀ (pre : Paged α) (rest : Paged α) (n : Nat) (s : σ) (tr : List ApiCall), allOk pre →
      (runPages mk step (pre ++ none :: rest) n s tr).1
        = pre.foldl (fun s pg => step s (pg.getD [])) s ∧
      (runPages mk step (pre ++ none :: rest) n s tr).2.2 = true := by
  intro pre
  induction pre with
  | nil => intro rest n s tr _; simp [runPages]
  | cons pg pre ih =>
    intro rest n s tr hok
    match pg with
    | none => exact absurd rfl (hok none (List.mem_cons_self _ _))
    | some xs =>
      simp only [List.cons_append, runPages, List.foldl_cons, Option.getD_some]
      exact ih rest (n + 1) (step s xs) (tr ++ [mk n])
        (fun p hp => hok p (List.mem_cons_of_mem _ hp))

theorem allOk_map_getD {α : Type} {pages : Paged α} (h : allOk pages) :
    ∀ {x : α}, (∃ pg ∈ pages, x ∈ pg.getD []) ↔ x ∈ pageItems pages := by
  intro x
  constructor
  · rintro ⟨pg, hpg, hx⟩
    match pg with
    | none => simp at hx
    | some xs => exact mem_pageItems hpg (by simpa using hx)
  · intro hx
    induction pages with
    | nil => simp [pageItems] at hx
    | cons pg rest ih =>
      simp only [pageItems, List.foldr_cons, List.mem_append] at hx
      rcases hx with h' | h'
      · exact ⟨pg, List.mem_cons_self _ _, h'⟩
      · rcases ih (fun p hp => h p (List.mem_cons_of_mem _ hp)) h' with ⟨pg', hpg', hx'⟩
        exact ⟨pg', List.mem_cons_of_mem _ hpg', hx'⟩

theorem foldl_pages_mem (x : String) :
    ∀ (pages : Paged Repository) (acc : List RepoID),
      x ∈ pages.foldl
          (fun s pg => addRepoToUserPerms s ((pg.getD []).map Repository.ID)) acc
        ↔ x ∈ acc ∨ ∃ pg ∈ pages, x ∈ (pg.getD []).map Repository.ID := by
  intro pages
  induction pages with
  | nil => intro acc; simp
  | cons pg rest ih =>
    intro acc
    simp only [List.foldl_cons, ih, mem_addRepoToUserPerms]
    constructor
    · rintro ((h | h) | ⟨pg', hpg', hx⟩)
      · exact Or.inl h
      · exact Or.inr ⟨pg, List.mem_cons_self _ _, h⟩
      · exact Or.inr ⟨pg', List.mem_cons_of_mem _ hpg', hx⟩
    · rintro (h | ⟨pg', hpg', hx⟩)
      · exact Or.inl (Or.inl h)
      · rcases List.mem_cons.mp hpg' with rfl | h'
        · exact Or.inl (Or.inr hx)
        · exact Or.inr ⟨pg', h', hx⟩

/-! ## C7: fail-fast precondition errors -/

/-- C7: FetchUserPerms fails fast, returning nil in place of a result and
making no directory-client call, when the account does not belong to this
provider's code host or when no credential token is present in the account
data; FetchRepoPerms fails fast likewise when the repository's code host
mismatches. -/
theorem fetchPerms_failFast :
    (∀ (p : Provider) (a : Account) (opts : FetchPermsOptions),
      ¬ IsHostOfAccount p a →
        (FetchUserPerms p (some a) opts).perms = none ∧
        (FetchUserPerms p (some a) opts).err.isSome = true ∧
        (FetchUserPerms p (some a) opts).trace = []) ∧
    (∀ (p : Provider) (a : Account) (opts : FetchPermsOptions),
      a.Token = none →
        (FetchUserPerms p (some a) opts).perms = none ∧
        (FetchUserPerms p (some a) opts).err.isSome = true ∧
        (FetchUserPerms p (some a) opts).trace = []) ∧
    (∀ (p : Provider) (r : ExtRepository) (opts : FetchPermsOptions),
      ¬ IsHostOfRepo p r →
        (FetchRepoPerms p (some r) opts).users = none ∧
        (FetchRepoPerms p (some r) opts).err.isSome = true ∧
        (FetchRepoPerms p (some r) opts).trace = []) := by
  refine ⟨?_, ?_, ?_⟩
  · intro p a opts h
    simp [FetchUserPerms, h]
  · intro p a opts h
    by_cases hh : IsHostOfAccount p a
    · simp [FetchUserPerms, hh, h]
    · simp [FetchUserPerms, hh]
  · intro p r opts h
    simp [FetchRepoPerms, h]

/-- Witness for C7 at a concrete provider and account/repository whose code
host does not match. -/
theorem fetchPerms_failFast_witness :
    (FetchUserPerms
        ⟨"urn", "sid", "github", "github.com", emptyClient, none⟩
        (some ⟨"1", "other", "github", some "tok"⟩) ⟨false⟩).perms = none ∧
    (FetchUserPerms
        ⟨"urn", "sid", "github", "github.com", emptyClient, none⟩
        (some ⟨"1", "sid", "github", none⟩) ⟨false⟩).err.isSome = true ∧
    (FetchRepoPerms
        ⟨"urn", "sid", "github", "github.com", emptyClient, none⟩
        (some ⟨"2", "github.com/alice/r", "other", "github"⟩) ⟨false⟩).trace = [] := by
  refine ⟨?_, ?_, ?_⟩
  · exact (fetchPerms_failFast.1 _ _ _ (by simp [IsHostOfAccount])).1
  · exact (fetchPerms_failFast.2.1 _ _ _ rfl).2.1
  · exact (fetchPerms_failFast.2.2 _ _ _ (by simp [IsHostOfRepo])).2.2

theorem foldl_cpages_mem (x : String) :
    ∀ (pages : Paged Collaborator) (acc : List AccountID),
      x ∈ pages.foldl
          (fun s pg => addUserToRepoPerms s ((pg.getD []).map (fun u => toString u.DatabaseID))) acc
        ↔ x ∈ acc ∨ ∃ pg ∈ pages, x ∈ (pg.getD []).map (fun u => toString u.DatabaseID) := by
  intro pages
  induction pages with
  | nil => intro acc; simp
  | cons pg rest ih =>
    intro acc
    simp only [List.foldl_cons, ih, mem_addUserToRepoPerms]
    constructor
    · rintro ((h | h) | ⟨pg', hpg', hx⟩)
      · exact Or.inl h
      · exact Or.inr ⟨pg, List.mem_cons_self _ _, h⟩
      · exact Or.inr ⟨pg', List.mem_cons_of_mem _ hpg', hx⟩
    · rintro (h | ⟨pg', hpg', hx⟩)
      · exact Or.inl (Or.inl h)
      · rcases List.mem_cons.mp hpg' with rfl | h'
        · exact Or.inl (Or.inr hx)
        · exact Or.inr ⟨pg', h', hx⟩

theorem mem_map_pageItems {α β : Type} (f : α → β) {pages : Paged α}
    (hok : allOk pages) (y : β) :
    (∃ pg ∈ pages, y ∈ (pg.getD []).map f) ↔ y ∈ (pageItems pages).map f := by
  simp only [List.mem_map]
  constructor
  · rintro ⟨pg, hpg, u, hu, rfl⟩
    exact ⟨u, (allOk_map_getD hok).mp ⟨pg, hpg, hu⟩, rfl⟩
  · rintro ⟨u, hu, rfl⟩
    rcases (allOk_map_getD hok).mpr hu with ⟨pg, hpg, hu'⟩
    exact ⟨pg, hpg, u, hu', rfl⟩

/-! ## C8: a not-found owning organization means no organization affiliation -/

/-- C8: a not-found response when resolving a repository's owning organization
makes getRepoAffiliatedGroups return an empty group list and no error, and
FetchRepoPerms then returns exactly the deduplicated direct collaborators; any
other lookup error is propagated as an error of FetchRepoPerms. -/
theorem orgNotFound_treatedAsNoOrg :
    (∀ (client : DirClient) (cache : GroupsCache) (owner name : String) (inv : Bool),
      client.GetOrganization Cred.base owner = .error .notFound →
        (getRepoAffiliatedGroups client cache owner name inv).groups = [] ∧
        (getRepoAffiliatedGroups client cache owner name inv).err = none ∧
        (getRepoAffiliatedGroups client cache owner name inv).cache = cache) ∧
    (∀ (p : Provider) (r : ExtRepository) (opts : FetchPermsOptions)
        (cache : GroupsCache) (owner name : String),
      p.groupsCache = some cache →
      IsHostOfRepo p r →
      SplitRepositoryNameWithOwner (goTrim (goTrim r.URI p.hostname) "/") = .ok (owner, name) →
      p.client.GetOrganization Cred.base owner = .error .notFound →
      allOk (p.client.ListRepositoryCollaborators Cred.base owner name "direct") →
        (FetchRepoPerms p (some r) opts).err = none ∧
        ∃ l, (FetchRepoPerms p (some r) opts).users = some l ∧
          ∀ x, x ∈ l ↔
            x ∈ accountIDs (pageItems
              (p.client.ListRepositoryCollaborators Cred.base owner name "direct"))) ∧
    (∀ (p : Provider) (r : ExtRepository) (opts : FetchPermsOptions)
        (cache : GroupsCache) (owner name : String),
      p.groupsCache = some cache →
      IsHostOfRepo p r →
      SplitRepositoryNameWithOwner (goTrim (goTrim r.URI p.hostname) "/") = .ok (owner, name) →
      p.client.GetOrganization Cred.base owner = .error .other →
      allOk (p.client.ListRepositoryCollaborators Cred.base owner name "direct") →
        (FetchRepoPerms p (some r) opts).err.isSome = true) := by
  refine ⟨?_, ?_, ?_⟩
  · intro client cache owner name inv horg
    simp [getRepoAffiliatedGroups, horg]
  · intro p r opts cache owner name hcache hhost hsplit horg hok
    have hds :
        getRepoAffiliatedGroups p.client cache owner name opts.InvalidateCaches
          = { groups := [], cache := cache,
              trace := [ApiCall.GetOrganization Cred.base owner], err := none } := by
      simp [getRepoAffiliatedGroups, horg]
    obtain ⟨hstate, herr⟩ := runPages_allOk
      (fun n => .ListRepositoryCollaborators Cred.base owner name "direct" n)
      (fun acc xs => addUserToRepoPerms acc (xs.map (fun u => toString u.DatabaseID)))
      (p.client.ListRepositoryCollaborators Cred.base owner name "direct") 1 [] [] hok
    simp only [FetchRepoPerms, hhost, if_pos, hsplit, hcache, Option.isSome_some,
      if_true, herr, Bool.false_eq_true, if_false, hds, hstate, processRepoGroups]
    refine ⟨trivial, _, rfl, ?_⟩
    intro x
    rw [foldl_cpages_mem, mem_map_pageItems _ hok]
    simp [accountIDs]
  · intro p r opts cache owner name hcache hhost hsplit horg hok
    have hds :
        getRepoAffiliatedGroups p.client cache owner name opts.InvalidateCaches
          = { groups := [], cache := cache,
              trace := [ApiCall.GetOrganization Cred.base owner],
              err := some "get organization" } := by
      simp [getRepoAffiliatedGroups, horg]
    obtain ⟨hstate, herr⟩ := runPages_allOk
      (fun n => .ListRepositoryCollaborators Cred.base owner name "direct" n)
      (fun acc xs => addUserToRepoPerms acc (xs.map (fun u => toString u.DatabaseID)))
      (p.client.ListRepositoryCollaborators Cred.base owner name "direct") 1 [] [] hok
    simp only [FetchRepoPerms, hhost, if_pos, hsplit, hcache, Option.isSome_some,
      if_true, herr, Bool.false_eq_true, if_false, hds]

/-- Witness for C8 at a concrete provider whose organization lookup is
not-found and whose repository has one direct collaborator. -/
theorem orgNotFound_treatedAsNoOrg_witness :
    ∃ l, (FetchRepoPerms
        ⟨"urn", "sid", "github", "github.com",
          { emptyClient with
            ListRepositoryCollaborators := fun _ _ _ _ => [some [⟨7⟩]] },
          some []⟩
        (some ⟨"2", "github.com/alice/r", "sid", "github"⟩) ⟨false⟩).users = some l ∧
      ∀ x, x ∈ l ↔
        x ∈ accountIDs (pageItems
          (({ emptyClient with
              ListRepositoryCollaborators := fun _ _ _ _ => [some [⟨7⟩]] } :
              DirClient).ListRepositoryCollaborators Cred.base "alice" "r" "direct")) := by
  exact (orgNotFound_treatedAsNoOrg.2.1
    ⟨"urn", "sid", "github", "github.com",
      { emptyClient with ListRepositoryCollaborators := fun _ _ _ _ => [some [⟨7⟩]] },
      some []⟩
    ⟨"2", "github.com/alice/r", "sid", "github"⟩ ⟨false⟩ [] "alice" "r"
    rfl (by simp [IsHostOfRepo]) (by decide) rfl (by decide)).2

/-! ## C2: no duplicate identifiers in the returned sets -/

theorem nodup_processUserGroup (client : DirClient) (a : AccountID)
    (perms : List RepoID) (cache : GroupsCache) (g : cachedGroup)
    (h : perms.Nodup) : (processUserGroup client a perms cache g).acc.Nodup := by
  simp only [processUserGroup]
  repeat' split
  all_goals
    first
      | exact nodup_addRepoToUserPerms _ _ h
      | (refine runPages_inv _ _ (fun s : List RepoID × List RepoID => s.2.Nodup) _ 1
          ([], perms) [] ?_ h
         intro s' xs hmem hs
         exact nodup_addRepoToUserPerms _ _ hs)

theorem nodup_processUserGroups (client : DirClient) (a : AccountID) :
    ∀ (gs : List cachedGroup) (perms : List RepoID) (cache : GroupsCache),
      perms.Nodup → (processUserGroups client a gs perms cache).acc.Nodup := by
  intro gs
  induction gs with
  | nil => intro perms cache h; simpa [processUserGroups] using h
  | cons g rest ih =>
    intro perms cache h
    simp only [processUserGroups]
    split
    · exact nodup_processUserGroup client a perms cache g h
    · exact ih _ _ (nodup_processUserGroup client a perms cache g h)

theorem nodup_processRepoGroup (client : DirClient) (owner : String)
    (repoID : RepoID) (userIDs : List AccountID) (cache : GroupsCache)
    (rg : repoAffiliatedGroup) (h : userIDs.Nodup) :
    (processRepoGroup client owner repoID userIDs cache rg).acc.Nodup := by
  simp only [processRepoGroup]
  repeat' split
  all_goals
    first
      | exact nodup_addUserToRepoPerms _ _ h
      | (refine runPages_inv _ _ (fun s : List AccountID × List AccountID => s.2.Nodup) _ 1
          (_, userIDs) [] ?_ h
         intro s' xs hmem hs
         exact nodup_addUserToRepoPerms _ _ hs)

theorem nodup_processRepoGroups (client : DirClient) (owner : String) (repoID : RepoID) :
    ∀ (gs : List repoAffiliatedGroup) (userIDs : List AccountID) (cache : GroupsCache),
      userIDs.Nodup → (processRepoGroups client owner repoID gs userIDs cache).acc.Nodup := by
  intro gs
  induction gs with
  | nil => intro userIDs cache h; simpa [processRepoGroups] using h
  | cons rg rest ih =>
    intro userIDs cache h
    simp only [processRepoGroups]
    split
    · exact nodup_processRepoGroup client owner repoID userIDs cache rg h
    · exact ih _ _ (nodup_processRepoGroup client owner repoID userIDs cache rg h)

theorem fetchUserPermsByToken_nodup (p : Provider) (a : AccountID) (tok : String)
    (opts : FetchPermsOptions) :
    ∃ x, (fetchUserPermsByToken p a tok opts).perms = some x ∧ x.Nodup := by
  have hdirect : ∀ (mk : Nat → ApiCall) (pages : Paged Repository),
      (runPages mk (fun acc xs => addRepoToUserPerms acc (xs.map Repository.ID))
        pages 1 [] []).1.Nodup :=
    fun mk pages => runPages_inv mk _ (fun s : List RepoID => s.Nodup) pages 1 [] []
      (fun s' xs _ hs => nodup_addRepoToUserPerms _ _ hs) List.nodup_nil
  simp only [fetchUserPermsByToken]
  repeat' split
  all_goals
    first
      | exact ⟨_, rfl, hdirect _ _⟩
      | exact ⟨_, rfl, nodup_processUserGroups _ _ _ _ _ (hdirect _ _)⟩

/-- C2: for every input and every sequence of pages and groups served by the
directory client, the repository set returned by FetchUserPerms and the
account set returned by FetchRepoPerms contain no identifier twice. -/
theorem fetchPerms_noDuplicates :
    (∀ (p : Provider) (account : Option Account) (opts : FetchPermsOptions)
        (l : List RepoID),
      (FetchUserPerms p account opts).perms = some l → l.Nodup) ∧
    (∀ (p : Provider) (repo : Option ExtRepository) (opts : FetchPermsOptions)
        (l : List AccountID),
      (FetchRepoPerms p repo opts).users = some l → l.Nodup) := by
  constructor
  · intro p account opts l hl
    match account with
    | none => simp [FetchUserPerms] at hl
    | some a =>
      by_cases hh : IsHostOfAccount p a
      · match htok : a.Token with
        | none => simp [FetchUserPerms, hh, htok] at hl
        | some tok =>
          obtain ⟨x, hx, hnd⟩ := fetchUserPermsByToken_nodup p a.AccountID tok opts
          rw [show FetchUserPerms p (some a) opts
              = fetchUserPermsByToken p a.AccountID tok opts from by
            simp [FetchUserPerms, hh, htok]] at hl
          rw [hl] at hx
          obtain rfl := (Option.some_inj.mp hx).symm
          exact hnd
      · simp [FetchUserPerms, hh] at hl
  · intro p repo opts l hl
    have hdirect : ∀ (mk : Nat → ApiCall) (pages : Paged Collaborator),
        (runPages mk
          (fun acc xs => addUserToRepoPerms acc (xs.map (fun u => toString u.DatabaseID)))
          pages 1 [] []).1.Nodup :=
      fun mk pages => runPages_inv mk _ (fun s : List AccountID => s.Nodup) pages 1 [] []
        (fun s' xs _ hs => nodup_addUserToRepoPerms _ _ hs) List.nodup_nil
    match repo with
    | none => simp [FetchRepoPerms] at hl
    | some r =>
      by_cases hh : IsHostOfRepo p r
      · have haux :
            (FetchRepoPerms p (some r) opts).users = none ∨
            ∃ x, (FetchRepoPerms p (some r) opts).users = some x ∧ x.Nodup := by
          simp only [FetchRepoPerms, hh, if_pos]
          repeat' split
          all_goals
            first
              | (left; rfl)
              | (right; exact ⟨_, rfl, hdirect _ _⟩)
              | (right; exact ⟨_, rfl, nodup_processRepoGroups _ _ _ _ _ _ (hdirect _ _)⟩)
        rcases haux with hnone | ⟨x, hx, hnd⟩
        · rw [hl] at hnone; cases hnone
        · rw [hl] at hx
          obtain rfl := (Option.some_inj.mp hx).symm
          exact hnd
      · simp [FetchRepoPerms, hh] at hl

/-- Witness for C2 at a concrete provider and account: the returned list is
duplicate-free. -/
theorem fetchPerms_noDuplicates_witness :
    ([ "1", "2" ] : List RepoID).Nodup := by
  exact fetchPerms_noDuplicates.1
    ⟨"urn", "sid", "github", "github.com",
      { emptyClient with
        ListAffiliatedRepositories := fun _ _ => [some [⟨"1"⟩, ⟨"2"⟩], some [⟨"1"⟩]] },
      none⟩
    (some ⟨"7", "sid", "github", some "tok"⟩) ⟨false⟩ ["1", "2"] (by decide)

/-! ## Trace characterization lemmas -/

theorem trace_getUserAffiliatedGroups (client : DirClient) (cred : Cred)
    (cache : GroupsCache) (inv : Bool) :
    ∀ c ∈ (getUserAffiliatedGroups client cred cache inv).trace,
      (∃ n, c = .GetAuthenticatedUserOrgsDetailsAndMembership cred n) ∨
      (∃ n, c = .GetAuthenticatedUserTeams cred n) := by
  intro c hc
  simp only [getUserAffiliatedGroups] at hc
  split at hc
  · rcases runPages_trace_inv _ _ _ 1 _ [] c hc with h | ⟨m, rfl⟩
    · cases h
    · exact Or.inl ⟨m, rfl⟩
  · rcases runPages_trace_inv _ _ _ 1 _ _ c hc with h | ⟨m, rfl⟩
    · rcases runPages_trace_inv _ _ _ 1 _ [] c h with h' | ⟨m, rfl⟩
      · cases h'
      · exact Or.inl ⟨m, rfl⟩
    · exact Or.inr ⟨m, rfl⟩

theorem trace_processUserGroup (client : DirClient) (a : AccountID)
    (perms : List RepoID) (cache : GroupsCache) (g : cachedGroup) :
    ∀ c ∈ (processUserGroup client a perms cache g).trace,
      (∃ org n, c = .ListOrgRepositories Cred.base org "" n) ∨
      (∃ org team n, c = .ListTeamRepositories Cred.base org team n) := by
  intro c hc
  simp only [processUserGroup] at hc
  repeat' split at hc
  all_goals
    first
      | cases hc
      | (rcases runPages_trace_inv _ _ _ 1 _ [] c hc with h | ⟨m, hm⟩
         · cases h
         · simp only [] at hm
           rw [hm]
           first
             | exact Or.inl ⟨_, _, rfl⟩
             | exact Or.inr ⟨_, _, _, rfl⟩)

theorem trace_processUserGroups (client : DirClient) (a : AccountID) :
    ∀ (gs : List cachedGroup) (perms : List RepoID) (cache : GroupsCache),
      ∀ c ∈ (processUserGroups client a gs perms cache).trace,
        (∃ org n, c = .ListOrgRepositories Cred.base org "" n) ∨
        (∃ org team n, c = .ListTeamRepositories Cred.base org team n) := by
  intro gs
  induction gs with
  | nil => intro perms cache c hc; cases hc
  | cons g rest ih =>
    intro perms cache c hc
    simp only [processUserGroups] at hc
    split at hc
    · exact trace_processUserGroup client a perms cache g c hc
    · rcases List.mem_append.mp hc with h | h
      · exact trace_processUserGroup client a perms cache g c h
      · exact ih _ _ c h

theorem FetchUserPerms_valid (p : Provider) (a : Account) (opts : FetchPermsOptions)
    (tok : String) (hh : IsHostOfAccount p a) (htok : a.Token = some tok) :
    FetchUserPerms p (some a) opts = fetchUserPermsByToken p a.AccountID tok opts := by
  simp [FetchUserPerms, hh, htok]

/-! ## C3: disabled-cache fallback -/

/-- C3: with group caching disabled, FetchUserPerms only ever calls the
direct-affiliation listing, with the user's token and the all-kinds
affiliation filter, and (when the pages succeed) returns exactly the
deduplicated set of the listed direct affiliations; with caching enabled the
direct-affiliation phase asks only for the owner and collaborator kinds. -/
theorem disabledCache_directOnly :
    (∀ (p : Provider) (a : Account) (opts : FetchPermsOptions) (tok : String),
      p.groupsCache = none → IsHostOfAccount p a → a.Token = some tok →
        (∀ c ∈ (FetchUserPerms p (some a) opts).trace,
          ∃ n, c = .ListAffiliatedRepositories (.user tok) [] n) ∧
        (allOk (p.client.ListAffiliatedRepositories (.user tok) []) →
          (FetchUserPerms p (some a) opts).err = none ∧
          ∃ l, (FetchUserPerms p (some a) opts).perms = some l ∧ l.Nodup ∧
            ∀ x, x ∈ l ↔
              x ∈ (pageItems (p.client.ListAffiliatedRepositories (.user tok) [])).map
                Repository.ID)) ∧
    (∀ (p : Provider) (a : Account) (opts : FetchPermsOptions) (tok : String)
        (cache : GroupsCache),
      p.groupsCache = some cache → IsHostOfAccount p a → a.Token = some tok →
        ∀ cred affs n,
          ApiCall.ListAffiliatedRepositories cred affs n
              ∈ (FetchUserPerms p (some a) opts).trace →
            affs = ["owner", "collaborator"]) := by
  constructor
  · intro p a opts tok hgc hh htok
    rw [FetchUserPerms_valid p a opts tok hh htok]
    constructor
    · intro c hc
      simp only [fetchUserPermsByToken, hgc, Option.isSome_none, Bool.false_eq_true,
        if_false] at hc
      split at hc
      all_goals
        rcases runPages_trace_inv _ _ _ 1 _ [] c hc with h | ⟨m, rfl⟩
        · cases h
        · exact ⟨m, rfl⟩
    · intro hok
      obtain ⟨hstate, herr⟩ := runPages_allOk
        (fun n => .ListAffiliatedRepositories (.user tok) [] n)
        (fun acc xs => addRepoToUserPerms acc (xs.map Repository.ID))
        (p.client.ListAffiliatedRepositories (.user tok) []) 1 [] [] hok
      have hnd := runPages_inv (fun n => .ListAffiliatedRepositories (.user tok) [] n)
        (fun acc xs => addRepoToUserPerms acc (xs.map Repository.ID))
        (fun s : List RepoID => s.Nodup)
        (p.client.ListAffiliatedRepositories (.user tok) []) 1 [] []
        (fun s' xs _ hs => nodup_addRepoToUserPerms _ _ hs) List.nodup_nil
      simp only [fetchUserPermsByToken, hgc, Option.isSome_none, Bool.false_eq_true,
        if_false, herr]
      refine ⟨trivial, _, rfl, hnd, ?_⟩
      intro x
      rw [hstate, foldl_pages_mem]
      simp only [List.not_mem_nil, false_or]
      exact mem_map_pageItems Repository.ID hok x
  · intro p a opts tok cache hgc hh htok cred affs n hmem
    rw [FetchUserPerms_valid p a opts tok hh htok] at hmem
    simp only [fetchUserPermsByToken, hgc, Option.isSome_some, if_true] at hmem
    have hr1 : ∀ c : ApiCall,
        (c ∈ (runPages
          (fun n => ApiCall.ListAffiliatedRepositories (.user tok) ["owner", "collaborator"] n)
          (fun acc xs => addRepoToUserPerms acc (xs.map Repository.ID))
          (p.client.ListAffiliatedRepositories (.user tok) ["owner", "collaborator"])
          1 [] []).2.1) →
        c = ApiCall.ListAffiliatedRepositories cred affs n → affs = ["owner", "collaborator"] := by
      intro c hc hceq
      rcases runPages_trace_inv _ _ _ 1 _ [] c hc with h | ⟨m, hm⟩
      · cases h
      · rw [hceq] at hm
        simp only [ApiCall.ListAffiliatedRepositories.injEq] at hm
        exact hm.2.1
    split at hmem
    · exact hr1 _ hmem rfl
    · split at hmem
      · rcases List.mem_append.mp hmem with h | h
        · exact hr1 _ h rfl
        · rcases trace_getUserAffiliatedGroups _ _ _ _ _ h with ⟨m, hm⟩ | ⟨m, hm⟩ <;>
            cases hm
      · rcases List.mem_append.mp hmem with h | h
        · rcases List.mem_append.mp h with h' | h'
          · exact hr1 _ h' rfl
          · rcases trace_getUserAffiliatedGroups _ _ _ _ _ h' with ⟨m, hm⟩ | ⟨m, hm⟩ <;>
              cases hm
        · rcases trace_processUserGroups _ _ _ _ _ _ h with ⟨o, m, hm⟩ | ⟨o, t, m, hm⟩ <;>
            cases hm

/-- Witness for C3 at a concrete provider with caching disabled and one page
of direct affiliations. -/
theorem disabledCache_directOnly_witness :
    (FetchUserPerms
      ⟨"urn", "sid", "github", "github.com",
        { emptyClient with
          ListAffiliatedRepositories := fun _ _ => [some [⟨"1"⟩]] },
        none⟩
      (some ⟨"7", "sid", "github", some "tok"⟩) ⟨false⟩).err = none := by
  exact ((disabledCache_directOnly.1
    ⟨"urn", "sid", "github", "github.com",
      { emptyClient with ListAffiliatedRepositories := fun _ _ => [some [⟨"1"⟩]] },
      none⟩
    ⟨"7", "sid", "github", some "tok"⟩ ⟨false⟩ "tok" rfl (by decide) rfl).2 (by decide)).1

theorem trace_fetchUserPermsByToken (p : Provider) (a : AccountID) (tok : String)
    (opts : FetchPermsOptions) :
    ∀ c ∈ (fetchUserPermsByToken p a tok opts).trace,
      (∃ affs n, c = .ListAffiliatedRepositories (.user tok) affs n) ∨
      (∃ org n, c = .ListOrgRepositories Cred.base org "" n) ∨
      (∃ org team n, c = .ListTeamRepositories Cred.base org team n) ∨
      (∃ n, c = .GetAuthenticatedUserOrgsDetailsAndMembership (.user tok) n) ∨
      (∃ n, c = .GetAuthenticatedUserTeams (.user tok) n) := by
  intro c hc
  have hr1 : ∀ (affs : List String),
      (c ∈ (runPages
        (fun n => ApiCall.ListAffiliatedRepositories (.user tok) affs n)
        (fun acc xs => addRepoToUserPerms acc (xs.map Repository.ID))
        (p.client.ListAffiliatedRepositories (.user tok) affs)
        1 [] []).2.1) →
      ∃ affs' n, c = ApiCall.ListAffiliatedRepositories (.user tok) affs' n := by
    intro affs h
    rcases runPages_trace_inv _ _ _ 1 _ [] c h with h' | ⟨m, rfl⟩
    · cases h'
    · exact ⟨affs, m, rfl⟩
  cases hgc : p.groupsCache with
  | none =>
    simp only [fetchUserPermsByToken, hgc, Option.isSome_none, Bool.false_eq_true,
      if_false] at hc
    split at hc
    · exact Or.inl (hr1 [] hc)
    · exact Or.inl (hr1 [] hc)
  | some cache =>
    simp only [fetchUserPermsByToken, hgc, Option.isSome_some, if_true] at hc
    split at hc
    · exact Or.inl (hr1 _ hc)
    · split at hc
      · rcases List.mem_append.mp hc with h | h
        · exact Or.inl (hr1 _ h)
        · rcases trace_getUserAffiliatedGroups _ _ _ _ _ h with ⟨m, rfl⟩ | ⟨m, rfl⟩
          · exact Or.inr (Or.inr (Or.inr (Or.inl ⟨m, rfl⟩)))
          · exact Or.inr (Or.inr (Or.inr (Or.inr ⟨m, rfl⟩)))
      · rcases List.mem_append.mp hc with h | h
        · rcases List.mem_append.mp h with h' | h'
          · exact Or.inl (hr1 _ h')
          · rcases trace_getUserAffiliatedGroups _ _ _ _ _ h' with ⟨m, rfl⟩ | ⟨m, rfl⟩
            · exact Or.inr (Or.inr (Or.inr (Or.inl ⟨m, rfl⟩)))
            · exact Or.inr (Or.inr (Or.inr (Or.inr ⟨m, rfl⟩)))
        · rcases trace_processUserGroups _ _ _ _ _ _ h with ⟨o, m, rfl⟩ | ⟨o, t, m, rfl⟩
          · exact Or.inr (Or.inl ⟨o, m, rfl⟩)
          · exact Or.inr (Or.inr (Or.inl ⟨o, t, m, rfl⟩))

/-! ## C10: credential scoping of the enumerations -/

/-- C10: inside FetchUserPerms, every direct-affiliation listing call is made
with the client rescoped to the account's own token, while every
group-repository listing (organization or team) is made with the provider's
base-credential client. -/
theorem fetchUserPerms_credentialScoping :
    ∀ (p : Provider) (a : Account) (opts : FetchPermsOptions) (tok : String),
      IsHostOfAccount p a → a.Token = some tok →
      (∀ cred affs n,
        ApiCall.ListAffiliatedRepositories cred affs n
            ∈ (FetchUserPerms p (some a) opts).trace → cred = .user tok) ∧
      (∀ cred org rt n,
        ApiCall.ListOrgRepositories cred org rt n
            ∈ (FetchUserPerms p (some a) opts).trace → cred = .base) ∧
      (∀ cred org team n,
        ApiCall.ListTeamRepositories cred org team n
            ∈ (FetchUserPerms p (some a) opts).trace → cred = .base) := by
  intro p a opts tok hh htok
  rw [FetchUserPerms_valid p a opts tok hh htok]
  refine ⟨?_, ?_, ?_⟩
  · intro cred affs n hmem
    rcases trace_fetchUserPermsByToken p a.AccountID tok opts _ hmem with
      ⟨affs', m, he⟩ | ⟨o, m, he⟩ | ⟨o, t, m, he⟩ | ⟨m, he⟩ | ⟨m, he⟩ <;>
      first
        | (simp only [ApiCall.ListAffiliatedRepositories.injEq] at he; exact he.1)
        | cases he
  · intro cred org rt n hmem
    rcases trace_fetchUserPermsByToken p a.AccountID tok opts _ hmem with
      ⟨affs', m, he⟩ | ⟨o, m, he⟩ | ⟨o, t, m, he⟩ | ⟨m, he⟩ | ⟨m, he⟩ <;>
      first
        | (simp only [ApiCall.ListOrgRepositories.injEq] at he; exact he.1)
        | cases he
  · intro cred org team n hmem
    rcases trace_fetchUserPermsByToken p a.AccountID tok opts _ hmem with
      ⟨affs', m, he⟩ | ⟨o, m, he⟩ | ⟨o, t, m, he⟩ | ⟨m, he⟩ | ⟨m, he⟩ <;>
      first
        | (simp only [ApiCall.ListTeamRepositories.injEq] at he; exact he.1)
        | cases he

/-- Witness for C10 at a concrete provider where both a direct-affiliation
call and an organization-repository call occur. -/
theorem fetchUserPerms_credentialScoping_witness :
    (Cred.user "tok" = Cred.user "tok") ∧ (Cred.base = Cred.base) := by
  refine ⟨?_, ?_⟩
  · exact (fetchUserPerms_credentialScoping
      ⟨"urn", "sid", "github", "github.com",
        { emptyClient with
          ListAffiliatedRepositories := fun _ _ => [some [⟨"1"⟩]],
          GetAuthenticatedUserOrgsDetailsAndMembership := fun _ => [some [⟨⟨"acme", true⟩⟩]],
          ListOrgRepositories := fun _ _ _ => [some [⟨"9"⟩]] },
        some []⟩
      ⟨"7", "sid", "github", some "tok"⟩ ⟨false⟩ "tok" (by decide) rfl).1
      (Cred.user "tok") ["owner", "collaborator"] 1 (by decide)
  · exact (fetchUserPerms_credentialScoping
      ⟨"urn", "sid", "github", "github.com",
        { emptyClient with
          ListAffiliatedRepositories := fun _ _ => [some [⟨"1"⟩]],
          GetAuthenticatedUserOrgsDetailsAndMembership := fun _ => [some [⟨⟨"acme", true⟩⟩]],
          ListOrgRepositories := fun _ _ _ => [some [⟨"9"⟩]] },
        some []⟩
      ⟨"7", "sid", "github", some "tok"⟩ ⟨false⟩ "tok" (by decide) rfl).2.1
      Cred.base "acme" "" 1 (by decide)

/-! ## C6: team groups and the redundant-subset skip -/

/-- C6 (code evaluation at the failing input): for a user in organization
"acme" whose default permission grants read to all members, and in team "dev"
of that organization with one affiliated repository, user-side group
discovery returns BOTH the whole-org group and the team group. The skip check
consults `seenGroups[team]` (the bare team slug) while the keys stored in
seenGroups are `key()` values derived from the organization, so the team is
never skipped on account of its already-included parent organization — against
the in-code comment ("If a team's repos is a subset of an organization's,
don't sync") and the claim. -/
theorem userGroups_subsetSkip_bug :
    (getUserAffiliatedGroups
      { emptyClient with
        GetAuthenticatedUserOrgsDetailsAndMembership :=
          fun _ => [some [⟨⟨"acme", true⟩⟩]],
        GetAuthenticatedUserTeams :=
          fun _ => [some [⟨"dev", 1, some ⟨"acme"⟩⟩]] }
      (Cred.user "tok") [] false).groups
      = [⟨"acme", "", [], []⟩, ⟨"acme", "dev", [], []⟩] := by decide

/-! ## C9: self-registration into partially cached groups -/

/-- C9 counterexample: a group with an empty member set (not listing the
account, so the claim's "otherwise" branch applies) is processed without
error, yet the account is NOT registered into the group's member field — the
cached record's Users stays empty. Self-registration only happens when the
field is already partially populated. -/
theorem groupSelfRegistration_counterexample :
    (processUserGroup
        { emptyClient with ListOrgRepositories := fun _ _ _ => [some [⟨"9"⟩]] }
        "7" [] [] ⟨"acme", "", [], []⟩).err = none ∧
    ("7" : AccountID) ∉
      (getGroup (processUserGroup
        { emptyClient with ListOrgRepositories := fun _ _ _ => [some [⟨"9"⟩]] }
        "7" [] [] ⟨"acme", "", [], []⟩).cache "acme" "").1.Users ∧
    ∀ w ∈ (processUserGroup
        { emptyClient with ListOrgRepositories := fun _ _ _ => [some [⟨"9"⟩]] }
        "7" [] [] ⟨"acme", "", [], []⟩).writes, ("7" : AccountID) ∉ w.Users := by
  decide

/-- C9 (amended): for every group processed during a fetch, (i) if the group
already lists the target in the corresponding field, no write changes that
field; (ii) otherwise, if the corresponding field is non-empty (a partial
cache hit), the first cache write appends the target to it exactly once —
checked by identifier equality, so a duplicate-free field stays
duplicate-free — while the other field is preserved; (iii) if the
corresponding field is empty, the target is not registered into it. -/
theorem groupSelfRegistration_amended :
    (∀ (client : DirClient) (a : AccountID) (perms : List RepoID)
        (cache : GroupsCache) (g : cachedGroup),
      a ∈ g.Users →
        ∀ w ∈ (processUserGroup client a perms cache g).writes, w.Users = g.Users) ∧
    (∀ (client : DirClient) (a : AccountID) (perms : List RepoID)
        (cache : GroupsCache) (g : cachedGroup),
      g.Users ≠ [] → a ∉ g.Users →
        (processUserGroup client a perms cache g).writes.head?
            = some ⟨g.Org, g.Team, g.Repositories, g.Users ++ [a]⟩ ∧
          (g.Users.Nodup → (g.Users ++ [a]).Nodup)) ∧
    (∀ (client : DirClient) (a : AccountID) (perms : List RepoID)
        (cache : GroupsCache) (g : cachedGroup),
      g.Users = [] →
        ∀ w ∈ (processUserGroup client a perms cache g).writes, w.Users = []) ∧
    (∀ (client : DirClient) (owner : String) (repoID : RepoID)
        (userIDs : List AccountID) (cache : GroupsCache) (rg : repoAffiliatedGroup),
      repoID ∈ rg.toCachedGroup.Repositories →
        ∀ w ∈ (processRepoGroup client owner repoID userIDs cache rg).writes,
          w.Repositories = rg.toCachedGroup.Repositories) ∧
    (∀ (client : DirClient) (owner : String) (repoID : RepoID)
        (userIDs : List AccountID) (cache : GroupsCache) (rg : repoAffiliatedGroup),
      rg.toCachedGroup.Repositories ≠ [] → repoID ∉ rg.toCachedGroup.Repositories →
        (processRepoGroup client owner repoID userIDs cache rg).writes.head?
            = some ⟨rg.toCachedGroup.Org, rg.toCachedGroup.Team,
                rg.toCachedGroup.Repositories ++ [repoID], rg.toCachedGroup.Users⟩ ∧
          (rg.toCachedGroup.Repositories.Nodup →
            (rg.toCachedGroup.Repositories ++ [repoID]).Nodup)) ∧
    (∀ (client : DirClient) (owner : String) (repoID : RepoID)
        (userIDs : List AccountID) (cache : GroupsCache) (rg : repoAffiliatedGroup),
      rg.toCachedGroup.Repositories = [] →
        ∀ w ∈ (processRepoGroup client owner repoID userIDs cache rg).writes,
          w.Repositories = []) := by
  refine ⟨?_, ?_, ?_, ?_, ?_, ?_⟩
  · intro client a perms cache g ha
    have hcond : ¬ (g.Users ≠ [] ∧ a ∉ g.Users) := by
      intro ⟨_, h2⟩; exact h2 ha
    simp only [processUserGroup, if_neg hcond]
    repeat' split
    all_goals intro w hw
    all_goals first
      | (rcases List.mem_singleton.mp hw with rfl; rfl)
      | cases hw
  · intro client a perms cache g h1 h2
    have hcond : g.Users ≠ [] ∧ a ∉ g.Users := ⟨h1, h2⟩
    constructor
    · simp only [processUserGroup, if_pos hcond]
      repeat' split
      all_goals rfl
    · intro hnd
      simp [List.nodup_append, hnd, h2]
  · intro client a perms cache g hu
    have hcond : ¬ (g.Users ≠ [] ∧ a ∉ g.Users) := by
      intro ⟨h1, _⟩; exact h1 hu
    simp only [processUserGroup, if_neg hcond]
    repeat' split
    all_goals intro w hw
    all_goals first
      | (rcases List.mem_singleton.mp hw with rfl; exact hu)
      | cases hw
  · intro client owner repoID userIDs cache rg ha
    have hcond : ¬ (rg.toCachedGroup.Repositories ≠ [] ∧
        repoID ∉ rg.toCachedGroup.Repositories) := by
      intro ⟨_, h2⟩; exact h2 ha
    simp only [processRepoGroup, if_neg hcond]
    repeat' split
    all_goals intro w hw
    all_goals first
      | (rcases List.mem_singleton.mp hw with rfl; rfl)
      | cases hw
  · intro client owner repoID userIDs cache rg h1 h2
    have hcond : rg.toCachedGroup.Repositories ≠ [] ∧
        repoID ∉ rg.toCachedGroup.Repositories := ⟨h1, h2⟩
    constructor
    · simp only [processRepoGroup, if_pos hcond]
      repeat' split
      all_goals rfl
    · intro hnd
      simp [List.nodup_append, hnd, h2]
  · intro client owner repoID userIDs cache rg hu
    have hcond : ¬ (rg.toCachedGroup.Repositories ≠ [] ∧
        repoID ∉ rg.toCachedGroup.Repositories) := by
      intro ⟨h1, _⟩; exact h1 hu
    simp only [processRepoGroup, if_neg hcond]
    repeat' split
    all_goals intro w hw
    all_goals first
      | (rcases List.mem_singleton.mp hw with rfl; exact hu)
      | cases hw

/-- Witness for the amended C9 at a concrete partially cached group: the
first write appends the account once and preserves the repositories. -/
theorem groupSelfRegistration_amended_witness :
    (processUserGroup emptyClient "7" [] [] ⟨"acme", "", ["1"], ["5"]⟩).writes.head?
        = some ⟨"acme", "", ["1"], ["5", "7"]⟩ ∧
      ((["5"] : List AccountID).Nodup → ((["5"] : List AccountID) ++ ["7"]).Nodup) := by
  exact groupSelfRegistration_amended.2.1 emptyClient "7" [] [] ⟨"acme", "", ["1"], ["5"]⟩
    (by decide) (by decide)

theorem runPages_err_of_mem_none {α σ : Type} (mk : Nat → ApiCall) (step : σ → List α → σ) :
    ∀ (pages : Paged α) (n : Nat) (s : σ) (tr : List ApiCall), none ∈ pages →
      (runPages mk step pages n s tr).2.2 = true := by
  intro pages
  induction pages with
  | nil => intro n s tr h; cases h
  | cons pg rest ih =>
    intro n s tr h
    match pg with
    | none => simp [runPages]
    | some xs =>
      have : none ∈ rest := by
        rcases List.mem_cons.mp h with h' | h'
        · cases h'
        · exact h'
      simpa [runPages] using ih (n + 1) (step s xs) (tr ++ [mk n]) this

theorem getGroup_setGroup_self :
    ∀ (c : GroupsCache) (g : cachedGroup),
      getGroup (setGroup c g) g.Org g.Team = (g, true) := by
  intro c
  induction c with
  | nil => intro g; simp [setGroup, getGroup]
  | cons h rest ih =>
    intro g
    by_cases hk : h.Org = g.Org ∧ h.Team = g.Team
    · simp [setGroup, hk, getGroup]
    · simp only [setGroup, if_neg hk, getGroup]
      exact ih g

theorem foldl_pages_groupRepos :
    ∀ (pages : Paged Repository) (acc : List RepoID) (pm : List RepoID),
      (pages.foldl (fun s pg => (s.1 ++ (pg.getD []).map Repository.ID,
          addRepoToUserPerms s.2 ((pg.getD []).map Repository.ID))) (acc, pm)).1
        = acc ++ (pageItems pages).map Repository.ID := by
  intro pages
  induction pages with
  | nil => intro acc pm; simp [pageItems]
  | cons pg rest ih =>
    intro acc pm
    simp only [List.foldl_cons, ih, pageItems, List.foldr_cons, List.map_append,
      List.append_assoc]

theorem foldl_pages_groupUsers :
    ∀ (pages : Paged Collaborator) (acc : List AccountID) (pm : List AccountID),
      (pages.foldl (fun s pg => (s.1 ++ (pg.getD []).map (fun u => toString u.DatabaseID),
          addUserToRepoPerms s.2 ((pg.getD []).map (fun u => toString u.DatabaseID)))) (acc, pm)).1
        = acc ++ (pageItems pages).map (fun u => toString u.DatabaseID) := by
  intro pages
  induction pages with
  | nil => intro acc pm; simp [pageItems]
  | cons pg rest ih =>
    intro acc pm
    simp only [List.foldl_cons, ih, pageItems, List.foldr_cons, List.map_append,
      List.append_assoc]

/-! ## C5: a group is persisted only after a complete successful enumeration -/

/-- C5: on either side, if any page of a group's re-enumeration fails, the
group is not persisted with the freshly enumerated set: the error is
reported, every cache write performed while processing the group carries the
repository (resp. member) field the group already had, and the cached entry's
enumerated field is exactly what it was before; when the enumeration instead
completes without error, the last write for the group is its record carrying
the complete freshly enumerated field, and it is what the cache then stores. -/
theorem groupPersistedOnlyOnFullSync :
    (∀ (client : DirClient) (a : AccountID) (perms : List RepoID)
        (cache : GroupsCache) (g : cachedGroup),
      g.Repositories = [] →
      (getGroup cache g.Org g.Team).1.Repositories = g.Repositories →
      none ∈ (if g.Team = "" then client.ListOrgRepositories Cred.base g.Org ""
              else client.ListTeamRepositories Cred.base g.Org g.Team) →
        (processUserGroup client a perms cache g).err.isSome = true ∧
        (∀ w ∈ (processUserGroup client a perms cache g).writes,
          w.Repositories = g.Repositories) ∧
        (getGroup (processUserGroup client a perms cache g).cache g.Org g.Team).1.Repositories
          = (getGroup cache g.Org g.Team).1.Repositories) ∧
    (∀ (client : DirClient) (a : AccountID) (perms : List RepoID)
        (cache : GroupsCache) (g : cachedGroup),
      g.Repositories = [] →
      allOk (if g.Team = "" then client.ListOrgRepositories Cred.base g.Org ""
             else client.ListTeamRepositories Cred.base g.Org g.Team) →
        (processUserGroup client a perms cache g).err = none ∧
        ∃ gw, (processUserGroup client a perms cache g).writes.getLast? = some gw ∧
          getGroup (processUserGroup client a perms cache g).cache g.Org g.Team = (gw, true) ∧
          gw.Repositories
            = (pageItems (if g.Team = "" then client.ListOrgRepositories Cred.base g.Org ""
                else client.ListTeamRepositories Cred.base g.Org g.Team)).map Repository.ID) ∧
    (∀ (client : DirClient) (owner : String) (repoID : RepoID)
        (userIDs : List AccountID) (cache : GroupsCache) (rg : repoAffiliatedGroup),
      rg.toCachedGroup.Users = [] →
      (getGroup cache rg.toCachedGroup.Org rg.toCachedGroup.Team).1.Users
        = rg.toCachedGroup.Users →
      none ∈ (if rg.toCachedGroup.Team = ""
              then client.ListOrganizationMembers Cred.base owner rg.adminsOnly
              else client.ListTeamMembers Cred.base owner rg.toCachedGroup.Team) →
        (processRepoGroup client owner repoID userIDs cache rg).err.isSome = true ∧
        (∀ w ∈ (processRepoGroup client owner repoID userIDs cache rg).writes,
          w.Users = rg.toCachedGroup.Users) ∧
        (getGroup (processRepoGroup client owner repoID userIDs cache rg).cache
            rg.toCachedGroup.Org rg.toCachedGroup.Team).1.Users
          = (getGroup cache rg.toCachedGroup.Org rg.toCachedGroup.Team).1.Users) ∧
    (∀ (client : DirClient) (owner : String) (repoID : RepoID)
        (userIDs : List AccountID) (cache : GroupsCache) (rg : repoAffiliatedGroup),
      rg.toCachedGroup.Users = [] →
      allOk (if rg.toCachedGroup.Team = ""
             then client.ListOrganizationMembers Cred.base owner rg.adminsOnly
             else client.ListTeamMembers Cred.base owner rg.toCachedGroup.Team) →
        (processRepoGroup client owner repoID userIDs cache rg).err = none ∧
        ∃ gw, (processRepoGroup client owner repoID userIDs cache rg).writes.getLast?
            = some gw ∧
          getGroup (processRepoGroup client owner repoID userIDs cache rg).cache
            rg.toCachedGroup.Org rg.toCachedGroup.Team = (gw, true) ∧
          gw.Users
            = rg.toCachedGroup.Users ++
              (pageItems (if rg.toCachedGroup.Team = ""
                then client.ListOrganizationMembers Cred.base owner rg.adminsOnly
                else client.ListTeamMembers Cred.base owner rg.toCachedGroup.Team)).map
                (fun u => toString u.DatabaseID)) := by
  refine ⟨?_, ?_, ?_, ?_⟩
  · intro client a perms cache g hrep hcons hfail
    have hflag := runPages_err_of_mem_none
      (fun n => if g.Team = "" then ApiCall.ListOrgRepositories Cred.base g.Org "" n
                else ApiCall.ListTeamRepositories Cred.base g.Org g.Team n)
      (fun (s : List RepoID × List RepoID) xs =>
        (s.1 ++ xs.map Repository.ID, addRepoToUserPerms s.2 (xs.map Repository.ID)))
      (if g.Team = "" then client.ListOrgRepositories Cred.base g.Org ""
       else client.ListTeamRepositories Cred.base g.Org g.Team) 1 ([], perms) [] hfail
    by_cases hcond : g.Users ≠ [] ∧ a ∉ g.Users
    · simp only [processUserGroup, if_pos hcond, hrep, ne_eq, not_true_eq_false,
        Bool.false_eq_true, if_false, hflag, if_true]
      refine ⟨rfl, ?_, ?_⟩
      · intro w hw
        rcases List.mem_singleton.mp hw with rfl
        exact hrep.symm ▸ rfl
      · rw [show getGroup (setGroup cache ⟨g.Org, g.Team, [], g.Users ++ [a]⟩) g.Org g.Team
            = (⟨g.Org, g.Team, [], g.Users ++ [a]⟩, true) from
          getGroup_setGroup_self cache _]
        rw [hcons, hrep]
    · simp only [processUserGroup, if_neg hcond, hrep, ne_eq, not_true_eq_false,
        Bool.false_eq_true, if_false, hflag, if_true]
      exact ⟨rfl, fun w hw => absurd hw (List.not_mem_nil w), trivial⟩
  · intro client a perms cache g hrep hok
    obtain ⟨hstate, herr⟩ := runPages_allOk
      (fun n => if g.Team = "" then ApiCall.ListOrgRepositories Cred.base g.Org "" n
                else ApiCall.ListTeamRepositories Cred.base g.Org g.Team n)
      (fun (s : List RepoID × List RepoID) xs =>
        (s.1 ++ xs.map Repository.ID, addRepoToUserPerms s.2 (xs.map Repository.ID)))
      (if g.Team = "" then client.ListOrgRepositories Cred.base g.Org ""
       else client.ListTeamRepositories Cred.base g.Org g.Team) 1 ([], perms) [] hok
    by_cases hcond : g.Users ≠ [] ∧ a ∉ g.Users
    · simp only [processUserGroup, if_pos hcond, hrep, ne_eq, not_true_eq_false,
        Bool.false_eq_true, if_false, herr]
      refine ⟨trivial, _, List.getLast?_concat _, getGroup_setGroup_self _ _, ?_⟩
      simp only [hstate, foldl_pages_groupRepos, List.nil_append]
    · simp only [processUserGroup, if_neg hcond, hrep, ne_eq, not_true_eq_false,
        Bool.false_eq_true, if_false, herr]
      refine ⟨trivial, _, List.getLast?_concat _, getGroup_setGroup_self _ _, ?_⟩
      simp only [hstate, foldl_pages_groupRepos, List.nil_append]
  · intro client owner repoID userIDs cache rg husr hcons hfail
    have hflag := runPages_err_of_mem_none
      (fun n => if rg.toCachedGroup.Team = ""
                then ApiCall.ListOrganizationMembers Cred.base owner rg.adminsOnly n
                else ApiCall.ListTeamMembers Cred.base owner rg.toCachedGroup.Team n)
      (fun (s : List AccountID × List AccountID) xs =>
        (s.1 ++ xs.map (fun u => toString u.DatabaseID),
          addUserToRepoPerms s.2 (xs.map (fun u => toString u.DatabaseID))))
      (if rg.toCachedGroup.Team = ""
       then client.ListOrganizationMembers Cred.base owner rg.adminsOnly
       else client.ListTeamMembers Cred.base owner rg.toCachedGroup.Team)
      1 ([], userIDs) [] hfail
    by_cases hcond : rg.toCachedGroup.Repositories ≠ [] ∧
        repoID ∉ rg.toCachedGroup.Repositories
    · simp only [processRepoGroup, if_pos hcond, husr, ne_eq, not_true_eq_false,
        Bool.false_eq_true, if_false, hflag, if_true]
      refine ⟨rfl, ?_, ?_⟩
      · intro w hw
        rcases List.mem_singleton.mp hw with rfl
        exact husr.symm ▸ rfl
      · rw [show getGroup
            (setGroup cache ⟨rg.toCachedGroup.Org, rg.toCachedGroup.Team,
              rg.toCachedGroup.Repositories ++ [repoID], []⟩)
            rg.toCachedGroup.Org rg.toCachedGroup.Team
            = (⟨rg.toCachedGroup.Org, rg.toCachedGroup.Team,
                rg.toCachedGroup.Repositories ++ [repoID], []⟩, true) from
          getGroup_setGroup_self cache _]
        rw [hcons, husr]
    · simp only [processRepoGroup, if_neg hcond, husr, ne_eq, not_true_eq_false,
        Bool.false_eq_true, if_false, hflag, if_true]
      exact ⟨rfl, fun w hw => absurd hw (List.not_mem_nil w), trivial⟩
  · intro client owner repoID userIDs cache rg husr hok
    obtain ⟨hstate, herr⟩ := runPages_allOk
      (fun n => if rg.toCachedGroup.Team = ""
                then ApiCall.ListOrganizationMembers Cred.base owner rg.adminsOnly n
                else ApiCall.ListTeamMembers Cred.base owner rg.toCachedGroup.Team n)
      (fun (s : List AccountID × List AccountID) xs =>
        (s.1 ++ xs.map (fun u => toString u.DatabaseID),
          addUserToRepoPerms s.2 (xs.map (fun u => toString u.DatabaseID))))
      (if rg.toCachedGroup.Team = ""
       then client.ListOrganizationMembers Cred.base owner rg.adminsOnly
       else client.ListTeamMembers Cred.base owner rg.toCachedGroup.Team)
      1 ([], userIDs) [] hok
    by_cases hcond : rg.toCachedGroup.Repositories ≠ [] ∧
        repoID ∉ rg.toCachedGroup.Repositories
    · simp only [processRepoGroup, if_pos hcond, husr, ne_eq, not_true_eq_false,
        Bool.false_eq_true, if_false, herr]
      refine ⟨trivial, _, List.getLast?_concat _, getGroup_setGroup_self _ _, ?_⟩
      simp only [hstate, foldl_pages_groupUsers, List.nil_append]
    · simp only [processRepoGroup, if_neg hcond, husr, ne_eq, not_true_eq_false,
        Bool.false_eq_true, if_false, herr]
      refine ⟨trivial, _, List.getLast?_concat _, getGroup_setGroup_self _ _, ?_⟩
      simp only [hstate, foldl_pages_groupUsers, List.nil_append]

/-- Witness for C5 at a concrete group whose repository enumeration fails on
its only page: an error is reported and the previously cached repositories
survive. -/
theorem groupPersistedOnlyOnFullSync_witness :
    (processUserGroup
        { emptyClient with ListOrgRepositories := fun _ _ _ => [none] }
        "7" [] [⟨"acme", "", [], ["9"]⟩] ⟨"acme", "", [], ["5"]⟩).err.isSome = true := by
  exact (groupPersistedOnlyOnFullSync.1
    { emptyClient with ListOrgRepositories := fun _ _ _ => [none] }
    "7" [] [⟨"acme", "", [], ["9"]⟩] ⟨"acme", "", [], ["5"]⟩
    rfl (by decide) (by decide)).1

theorem foldl_pages_snd :
    ∀ (pages : Paged Repository) (acc : List RepoID) (pm : List RepoID),
      (pages.foldl (fun s pg => (s.1 ++ (pg.getD []).map Repository.ID,
          addRepoToUserPerms s.2 ((pg.getD []).map Repository.ID))) (acc, pm)).2
        = pages.foldl
            (fun s pg => addRepoToUserPerms s ((pg.getD []).map Repository.ID)) pm := by
  intro pages
  induction pages with
  | nil => intro acc pm; rfl
  | cons pg rest ih =>
    intro acc pm
    simp only [List.foldl_cons, ih]

theorem processUserGroups_append (client : DirClient) (a : AccountID) :
    ∀ (gs₁ gs₂ : List cachedGroup) (perms : List RepoID) (cache : GroupsCache),
      (processUserGroups client a gs₁ perms cache).err = none →
      (processUserGroups client a (gs₁ ++ gs₂) perms cache).acc
          = (processUserGroups client a gs₂
              (processUserGroups client a gs₁ perms cache).acc
              (processUserGroups client a gs₁ perms cache).cache).acc ∧
      (processUserGroups client a (gs₁ ++ gs₂) perms cache).err
          = (processUserGroups client a gs₂
              (processUserGroups client a gs₁ perms cache).acc
              (processUserGroups client a gs₁ perms cache).cache).err := by
  intro gs₁
  induction gs₁ with
  | nil => intro gs₂ perms cache _; exact ⟨rfl, rfl⟩
  | cons g rest ih =>
    intro gs₂ perms cache herr
    simp only [processUserGroups, List.cons_append] at herr ⊢
    split at herr
    · cases herr
    · rename_i r hre
      simp only [processUserGroups, hre] at herr ⊢
      · exact ih gs₂ _ _ herr

theorem processUserGroup_errChar (client : DirClient) (a : AccountID)
    (pm : List RepoID) (cache : GroupsCache) (g : cachedGroup)
    (pre rest : Paged Repository) (hrep : g.Repositories = [])
    (hpages : (if g.Team = "" then client.ListOrgRepositories Cred.base g.Org ""
               else client.ListTeamRepositories Cred.base g.Org g.Team)
        = pre ++ none :: rest)
    (hpre : allOk pre) :
    (processUserGroup client a pm cache g).err = some "list repos for group" ∧
    ∀ x, x ∈ (processUserGroup client a pm cache g).acc ↔
      x ∈ pm ∨ x ∈ (pageItems pre).map Repository.ID := by
  obtain ⟨hstate, hflag⟩ := runPages_firstErr
    (fun n => if g.Team = "" then ApiCall.ListOrgRepositories Cred.base g.Org "" n
              else ApiCall.ListTeamRepositories Cred.base g.Org g.Team n)
    (fun (s : List RepoID × List RepoID) xs =>
      (s.1 ++ xs.map Repository.ID, addRepoToUserPerms s.2 (xs.map Repository.ID)))
    pre rest 1 ([], pm) [] hpre
  by_cases hcond : g.Users ≠ [] ∧ a ∉ g.Users
  · simp only [processUserGroup, if_pos hcond, hrep, ne_eq, not_true_eq_false,
      Bool.false_eq_true, if_false, hpages, hflag, if_true]
    refine ⟨trivial, ?_⟩
    intro x
    rw [hstate, foldl_pages_snd, foldl_pages_mem]
    exact or_congr Iff.rfl (mem_map_pageItems Repository.ID hpre x)
  · simp only [processUserGroup, if_neg hcond, hrep, ne_eq, not_true_eq_false,
      Bool.false_eq_true, if_false, hpages, hflag, if_true]
    refine ⟨trivial, ?_⟩
    intro x
    rw [hstate, foldl_pages_snd, foldl_pages_mem]
    exact or_congr Iff.rfl (mem_map_pageItems Repository.ID hpre x)

/-! ## C4: partial failure preserves progress -/

theorem foldl_cpages_snd :
    ∀ (pages : Paged Collaborator) (acc : List AccountID) (pm : List AccountID),
      (pages.foldl (fun s pg => (s.1 ++ (pg.getD []).map (fun u => toString u.DatabaseID),
          addUserToRepoPerms s.2 ((pg.getD []).map (fun u => toString u.DatabaseID)))) (acc, pm)).2
        = pages.foldl
            (fun s pg =>
              addUserToRepoPerms s ((pg.getD []).map (fun u => toString u.DatabaseID))) pm := by
  intro pages
  induction pages with
  | nil => intro acc pm; rfl
  | cons pg rest ih =>
    intro acc pm
    simp only [List.foldl_cons, ih]

theorem processRepoGroups_append (client : DirClient) (owner : String) (repoID : RepoID) :
    ∀ (gs₁ gs₂ : List repoAffiliatedGroup) (userIDs : List AccountID) (cache : GroupsCache),
      (processRepoGroups client owner repoID gs₁ userIDs cache).err = none →
      (processRepoGroups client owner repoID (gs₁ ++ gs₂) userIDs cache).acc
          = (processRepoGroups client owner repoID gs₂
              (processRepoGroups client owner repoID gs₁ userIDs cache).acc
              (processRepoGroups client owner repoID gs₁ userIDs cache).cache).acc ∧
      (processRepoGroups client owner repoID (gs₁ ++ gs₂) userIDs cache).err
          = (processRepoGroups client owner repoID gs₂
              (processRepoGroups client owner repoID gs₁ userIDs cache).acc
              (processRepoGroups client owner repoID gs₁ userIDs cache).cache).err := by
  intro gs₁
  induction gs₁ with
  | nil => intro gs₂ userIDs cache _; exact ⟨rfl, rfl⟩
  | cons rg rest ih =>
    intro gs₂ userIDs cache herr
    simp only [processRepoGroups, List.cons_append] at herr ⊢
    split at herr
    · cases herr
    · rename_i r hre
      simp only [processRepoGroups, hre] at herr ⊢
      exact ih gs₂ _ _ herr

theorem processRepoGroup_errChar (client : DirClient) (owner : String) (repoID : RepoID)
    (pm : List AccountID) (cache : GroupsCache) (rg : repoAffiliatedGroup)
    (pre rest : Paged Collaborator) (hUsr : rg.toCachedGroup.Users = [])
    (hpages : (if rg.toCachedGroup.Team = ""
               then client.ListOrganizationMembers Cred.base owner rg.adminsOnly
               else client.ListTeamMembers Cred.base owner rg.toCachedGroup.Team)
        = pre ++ none :: rest)
    (hpre : allOk pre) :
    (processRepoGroup client owner repoID pm cache rg).err = some "list users for group" ∧
    ∀ x, x ∈ (processRepoGroup client owner repoID pm cache rg).acc ↔
      x ∈ pm ∨ x ∈ (pageItems pre).map (fun u => toString u.DatabaseID) := by
  obtain ⟨hstate, hflag⟩ := runPages_firstErr
    (fun n => if rg.toCachedGroup.Team = ""
              then ApiCall.ListOrganizationMembers Cred.base owner rg.adminsOnly n
              else ApiCall.ListTeamMembers Cred.base owner rg.toCachedGroup.Team n)
    (fun (s : List AccountID × List AccountID) xs =>
      (s.1 ++ xs.map (fun u => toString u.DatabaseID),
        addUserToRepoPerms s.2 (xs.map (fun u => toString u.DatabaseID))))
    pre rest 1 ([], pm) [] hpre
  by_cases hcond : rg.toCachedGroup.Repositories ≠ [] ∧
      repoID ∉ rg.toCachedGroup.Repositories
  · simp only [processRepoGroup, if_pos hcond, hUsr, ne_eq, not_true_eq_false,
      Bool.false_eq_true, if_false, hpages, hflag, if_true]
    refine ⟨trivial, ?_⟩
    intro x
    rw [hstate, foldl_cpages_snd, foldl_cpages_mem]
    exact or_congr Iff.rfl (mem_map_pageItems (fun u => toString u.DatabaseID) hpre x)
  · simp only [processRepoGroup, if_neg hcond, hUsr, ne_eq, not_true_eq_false,
      Bool.false_eq_true, if_false, hpages, hflag, if_true]
    refine ⟨trivial, ?_⟩
    intro x
    rw [hstate, foldl_cpages_snd, foldl_cpages_mem]
    exact or_congr Iff.rfl (mem_map_pageItems (fun u => toString u.DatabaseID) hpre x)


/-- C4: when a page of a paginated enumeration fails, the operation returns
an error together with the deduplicated union of everything accumulated
before the failure. Covered enumerations: the direct-affiliation listing of
FetchUserPerms (pages before the failing one), the direct-collaborator
listing of FetchRepoPerms, a group's repository enumeration inside
FetchUserPerms and a group's member enumeration inside FetchRepoPerms (the
direct set, all previously completed groups, and the failing group's pages
before the error), and a failing group-discovery phase on either side (the
direct set is returned with the error). -/
theorem partialFailure_preservesProgress :
    (∀ (p : Provider) (a : Account) (opts : FetchPermsOptions) (tok : String)
        (pre rest : Paged Repository),
      IsHostOfAccount p a → a.Token = some tok → allOk pre →
      p.client.ListAffiliatedRepositories (.user tok)
          (if p.groupsCache.isSome then ["owner", "collaborator"] else [])
        = pre ++ none :: rest →
        (FetchUserPerms p (some a) opts).err.isSome = true ∧
        ∃ l, (FetchUserPerms p (some a) opts).perms = some l ∧ l.Nodup ∧
          ∀ x, x ∈ l ↔ x ∈ (pageItems pre).map Repository.ID) ∧
    (∀ (p : Provider) (r : ExtRepository) (opts : FetchPermsOptions)
        (owner name : String) (pre rest : Paged Collaborator),
      IsHostOfRepo p r →
      SplitRepositoryNameWithOwner (goTrim (goTrim r.URI p.hostname) "/")
        = .ok (owner, name) →
      allOk pre →
      p.client.ListRepositoryCollaborators Cred.base owner name
          (if p.groupsCache.isSome then "direct" else "") = pre ++ none :: rest →
        (FetchRepoPerms p (some r) opts).err.isSome = true ∧
        ∃ l, (FetchRepoPerms p (some r) opts).users = some l ∧ l.Nodup ∧
          ∀ x, x ∈ l ↔ x ∈ (pageItems pre).map (fun u => toString u.DatabaseID)) ∧
    (∀ (p : Provider) (a : Account) (opts : FetchPermsOptions) (tok : String)
        (cache cache₁ : GroupsCache) (tr₁ : List ApiCall)
        (gs₁ : List cachedGroup) (g : cachedGroup) (gs₂ : List cachedGroup)
        (dl : List RepoID) (pre rest : Paged Repository),
      IsHostOfAccount p a → a.Token = some tok → p.groupsCache = some cache →
      allOk (p.client.ListAffiliatedRepositories (.user tok) ["owner", "collaborator"]) →
      (runPages
          (fun n => ApiCall.ListAffiliatedRepositories (.user tok) ["owner", "collaborator"] n)
          (fun acc xs => addRepoToUserPerms acc (xs.map Repository.ID))
          (p.client.ListAffiliatedRepositories (.user tok) ["owner", "collaborator"])
          1 [] []).1 = dl →
      getUserAffiliatedGroups p.client (.user tok) cache opts.InvalidateCaches
        = ⟨gs₁ ++ g :: gs₂, cache₁, tr₁, none⟩ →
      (processUserGroups p.client a.AccountID gs₁ dl cache₁).err = none →
      g.Repositories = [] →
      (if g.Team = "" then p.client.ListOrgRepositories Cred.base g.Org ""
       else p.client.ListTeamRepositories Cred.base g.Org g.Team)
        = pre ++ none :: rest →
      allOk pre →
        (FetchUserPerms p (some a) opts).err.isSome = true ∧
        ∃ l, (FetchUserPerms p (some a) opts).perms = some l ∧ l.Nodup ∧
          ∀ x, x ∈ l ↔
            (x ∈ (processUserGroups p.client a.AccountID gs₁ dl cache₁).acc ∨
             x ∈ (pageItems pre).map Repository.ID)) ∧
    (∀ (p : Provider) (r : ExtRepository) (opts : FetchPermsOptions)
        (owner name : String) (cache cache₁ : GroupsCache) (tr₁ : List ApiCall)
        (gs₁ : List repoAffiliatedGroup) (rg : repoAffiliatedGroup)
        (gs₂ : List repoAffiliatedGroup)
        (dl : List AccountID) (pre rest : Paged Collaborator),
      IsHostOfRepo p r →
      SplitRepositoryNameWithOwner (goTrim (goTrim r.URI p.hostname) "/")
        = .ok (owner, name) →
      p.groupsCache = some cache →
      allOk (p.client.ListRepositoryCollaborators Cred.base owner name "direct") →
      (runPages
          (fun n => ApiCall.ListRepositoryCollaborators Cred.base owner name "direct" n)
          (fun acc xs => addUserToRepoPerms acc (xs.map (fun u => toString u.DatabaseID)))
          (p.client.ListRepositoryCollaborators Cred.base owner name "direct")
          1 [] []).1 = dl →
      getRepoAffiliatedGroups p.client cache owner name opts.InvalidateCaches
        = ⟨gs₁ ++ rg :: gs₂, cache₁, tr₁, none⟩ →
      (processRepoGroups p.client owner r.ID gs₁ dl cache₁).err = none →
      rg.toCachedGroup.Users = [] →
      (if rg.toCachedGroup.Team = ""
       then p.client.ListOrganizationMembers Cred.base owner rg.adminsOnly
       else p.client.ListTeamMembers Cred.base owner rg.toCachedGroup.Team)
        = pre ++ none :: rest →
      allOk pre →
        (FetchRepoPerms p (some r) opts).err.isSome = true ∧
        ∃ l, (FetchRepoPerms p (some r) opts).users = some l ∧ l.Nodup ∧
          ∀ x, x ∈ l ↔
            (x ∈ (processRepoGroups p.client owner r.ID gs₁ dl cache₁).acc ∨
             x ∈ (pageItems pre).map (fun u => toString u.DatabaseID))) ∧
    (∀ (p : Provider) (a : Account) (opts : FetchPermsOptions) (tok : String)
        (cache cache₁ : GroupsCache) (tr₁ : List ApiCall)
        (gs : List cachedGroup) (e : String) (dl : List RepoID),
      IsHostOfAccount p a → a.Token = some tok → p.groupsCache = some cache →
      allOk (p.client.ListAffiliatedRepositories (.user tok) ["owner", "collaborator"]) →
      (runPages
          (fun n => ApiCall.ListAffiliatedRepositories (.user tok) ["owner", "collaborator"] n)
          (fun acc xs => addRepoToUserPerms acc (xs.map Repository.ID))
          (p.client.ListAffiliatedRepositories (.user tok) ["owner", "collaborator"])
          1 [] []).1 = dl →
      getUserAffiliatedGroups p.client (.user tok) cache opts.InvalidateCaches
        = ⟨gs, cache₁, tr₁, some e⟩ →
        (FetchUserPerms p (some a) opts).err.isSome = true ∧
        (FetchUserPerms p (some a) opts).perms = some dl ∧ dl.Nodup ∧
        ∀ x, x ∈ dl ↔
          x ∈ (pageItems (p.client.ListAffiliatedRepositories (.user tok)
            ["owner", "collaborator"])).map Repository.ID) ∧
    (∀ (p : Provider) (r : ExtRepository) (opts : FetchPermsOptions)
        (owner name : String) (cache cache₁ : GroupsCache) (tr₁ : List ApiCall)
        (gs : List repoAffiliatedGroup) (e : String) (dl : List AccountID),
      IsHostOfRepo p r →
      SplitRepositoryNameWithOwner (goTrim (goTrim r.URI p.hostname) "/")
        = .ok (owner, name) →
      p.groupsCache = some cache →
      allOk (p.client.ListRepositoryCollaborators Cred.base owner name "direct") →
      (runPages
          (fun n => ApiCall.ListRepositoryCollaborators Cred.base owner name "direct" n)
          (fun acc xs => addUserToRepoPerms acc (xs.map (fun u => toString u.DatabaseID)))
          (p.client.ListRepositoryCollaborators Cred.base owner name "direct")
          1 [] []).1 = dl →
      getRepoAffiliatedGroups p.client cache owner name opts.InvalidateCaches
        = ⟨gs, cache₁, tr₁, some e⟩ →
        (FetchRepoPerms p (some r) opts).err.isSome = true ∧
        (FetchRepoPerms p (some r) opts).users = some dl ∧ dl.Nodup ∧
        ∀ x, x ∈ dl ↔
          x ∈ (pageItems (p.client.ListRepositoryCollaborators Cred.base owner name
            "direct")).map (fun u => toString u.DatabaseID)) := by
  refine ⟨?_, ?_, ?_, ?_, ?_, ?_⟩
  · intro p a opts tok pre rest hh htok hpre hpages
    rw [FetchUserPerms_valid p a opts tok hh htok]
    obtain ⟨hstate, hflag⟩ := runPages_firstErr
      (fun n => ApiCall.ListAffiliatedRepositories (.user tok)
        (if p.groupsCache.isSome then ["owner", "collaborator"] else []) n)
      (fun acc xs => addRepoToUserPerms acc (xs.map Repository.ID))
      pre rest 1 [] [] hpre
    have hnd := runPages_inv
      (fun n => ApiCall.ListAffiliatedRepositories (.user tok)
        (if p.groupsCache.isSome then ["owner", "collaborator"] else []) n)
      (fun acc xs => addRepoToUserPerms acc (xs.map Repository.ID))
      (fun s : List RepoID => s.Nodup) (pre ++ none :: rest) 1 [] []
      (fun s' xs _ hs => nodup_addRepoToUserPerms _ _ hs) List.nodup_nil
    rw [hstate] at hnd
    simp only [fetchUserPermsByToken, hpages, hflag, if_true, hstate]
    refine ⟨by simp, _, rfl, hnd, ?_⟩
    intro x
    rw [foldl_pages_mem]
    simp only [List.not_mem_nil, false_or]
    exact mem_map_pageItems Repository.ID hpre x
  · intro p r opts owner name pre rest hh hsplit hpre hpages
    obtain ⟨hstate, hflag⟩ := runPages_firstErr
      (fun n => ApiCall.ListRepositoryCollaborators Cred.base owner name
        (if p.groupsCache.isSome then "direct" else "") n)
      (fun acc xs => addUserToRepoPerms acc (xs.map (fun u => toString u.DatabaseID)))
      pre rest 1 [] [] hpre
    have hnd := runPages_inv
      (fun n => ApiCall.ListRepositoryCollaborators Cred.base owner name
        (if p.groupsCache.isSome then "direct" else "") n)
      (fun acc xs => addUserToRepoPerms acc (xs.map (fun u => toString u.DatabaseID)))
      (fun s : List AccountID => s.Nodup) (pre ++ none :: rest) 1 [] []
      (fun s' xs _ hs => nodup_addUserToRepoPerms _ _ hs) List.nodup_nil
    rw [hstate] at hnd
    simp only [FetchRepoPerms, hh, if_pos, hsplit, hpages, hflag, if_true, hstate]
    refine ⟨by simp, _, rfl, hnd, ?_⟩
    intro x
    rw [foldl_cpages_mem]
    simp only [List.not_mem_nil, false_or]
    exact mem_map_pageItems (fun u => toString u.DatabaseID) hpre x
  · intro p a opts tok cache cache₁ tr₁ gs₁ g gs₂ dl pre rest
      hh htok hgc hdirok hdl hdisc hprev hrep hgpages hpre
    rw [FetchUserPerms_valid p a opts tok hh htok]
    obtain ⟨hstate₀, herr₀⟩ := runPages_allOk
      (fun n => ApiCall.ListAffiliatedRepositories (.user tok) ["owner", "collaborator"] n)
      (fun acc xs => addRepoToUserPerms acc (xs.map Repository.ID))
      (p.client.ListAffiliatedRepositories (.user tok) ["owner", "collaborator"])
      1 [] [] hdirok
    obtain ⟨herrc, hmemc⟩ := processUserGroup_errChar p.client a.AccountID
      (processUserGroups p.client a.AccountID gs₁ dl cache₁).acc
      (processUserGroups p.client a.AccountID gs₁ dl cache₁).cache
      g pre rest hrep hgpages hpre
    obtain ⟨hacc, herr⟩ := processUserGroups_append p.client a.AccountID
      gs₁ (g :: gs₂) dl cache₁ hprev
    have hstep : (processUserGroups p.client a.AccountID (g :: gs₂)
        (processUserGroups p.client a.AccountID gs₁ dl cache₁).acc
        (processUserGroups p.client a.AccountID gs₁ dl cache₁).cache).err
          = some "list repos for group" ∧
        (processUserGroups p.client a.AccountID (g :: gs₂)
          (processUserGroups p.client a.AccountID gs₁ dl cache₁).acc
          (processUserGroups p.client a.AccountID gs₁ dl cache₁).cache).acc
          = (processUserGroup p.client a.AccountID
              (processUserGroups p.client a.AccountID gs₁ dl cache₁).acc
              (processUserGroups p.client a.AccountID gs₁ dl cache₁).cache g).acc := by
      simp only [processUserGroups, herrc]
      exact ⟨trivial, trivial⟩
    have hndl : dl.Nodup := by
      rw [← hdl]
      exact runPages_inv _ _ (fun s : List RepoID => s.Nodup) _ 1 [] []
        (fun s' xs _ hs => nodup_addRepoToUserPerms _ _ hs) List.nodup_nil
    have hndacc : (processUserGroup p.client a.AccountID
        (processUserGroups p.client a.AccountID gs₁ dl cache₁).acc
        (processUserGroups p.client a.AccountID gs₁ dl cache₁).cache g).acc.Nodup :=
      nodup_processUserGroup _ _ _ _ _ (nodup_processUserGroups _ _ _ _ _ hndl)
    simp only [fetchUserPermsByToken, hgc, Option.isSome_some, if_true, herr₀,
      Bool.false_eq_true, if_false, hdisc, hdl]
    refine ⟨?_, _, rfl, ?_, ?_⟩
    · rw [herr, hstep.1]
      rfl
    · rw [hacc, hstep.2]
      exact hndacc
    · intro x
      rw [hacc, hstep.2, hmemc]
  · intro p r opts owner name cache cache₁ tr₁ gs₁ rg gs₂ dl pre rest
      hh hsplit hgc hdirok hdl hdisc hprev hUsr hgpages hpre
    obtain ⟨hstate₀, herr₀⟩ := runPages_allOk
      (fun n => ApiCall.ListRepositoryCollaborators Cred.base owner name "direct" n)
      (fun acc xs => addUserToRepoPerms acc (xs.map (fun u => toString u.DatabaseID)))
      (p.client.ListRepositoryCollaborators Cred.base owner name "direct") 1 [] [] hdirok
    obtain ⟨herrc, hmemc⟩ := processRepoGroup_errChar p.client owner r.ID
      (processRepoGroups p.client owner r.ID gs₁ dl cache₁).acc
      (processRepoGroups p.client owner r.ID gs₁ dl cache₁).cache
      rg pre rest hUsr hgpages hpre
    obtain ⟨hacc, herr⟩ := processRepoGroups_append p.client owner r.ID
      gs₁ (rg :: gs₂) dl cache₁ hprev
    have hstep : (processRepoGroups p.client owner r.ID (rg :: gs₂)
        (processRepoGroups p.client owner r.ID gs₁ dl cache₁).acc
        (processRepoGroups p.client owner r.ID gs₁ dl cache₁).cache).err
          = some "list users for group" ∧
        (processRepoGroups p.client owner r.ID (rg :: gs₂)
          (processRepoGroups p.client owner r.ID gs₁ dl cache₁).acc
          (processRepoGroups p.client owner r.ID gs₁ dl cache₁).cache).acc
          = (processRepoGroup p.client owner r.ID
              (processRepoGroups p.client owner r.ID gs₁ dl cache₁).acc
              (processRepoGroups p.client owner r.ID gs₁ dl cache₁).cache rg).acc := by
      simp only [processRepoGroups, herrc]
      exact ⟨trivial, trivial⟩
    have hndl : dl.Nodup := by
      rw [← hdl]
      exact runPages_inv _ _ (fun s : List AccountID => s.Nodup) _ 1 [] []
        (fun s' xs _ hs => nodup_addUserToRepoPerms _ _ hs) List.nodup_nil
    have hndacc : (processRepoGroup p.client owner r.ID
        (processRepoGroups p.client owner r.ID gs₁ dl cache₁).acc
        (processRepoGroups p.client owner r.ID gs₁ dl cache₁).cache rg).acc.Nodup :=
      nodup_processRepoGroup _ _ _ _ _ _ (nodup_processRepoGroups _ _ _ _ _ _ hndl)
    simp only [FetchRepoPerms, hh, if_pos, hsplit, hgc, Option.isSome_some, if_true,
      herr₀, Bool.false_eq_true, if_false, hdisc, hdl]
    refine ⟨?_, _, rfl, ?_, ?_⟩
    · rw [herr, hstep.1]
      rfl
    · rw [hacc, hstep.2]
      exact hndacc
    · intro x
      rw [hacc, hstep.2, hmemc]
  · intro p a opts tok cache cache₁ tr₁ gs e dl hh htok hgc hdirok hdl hdisc
    rw [FetchUserPerms_valid p a opts tok hh htok]
    obtain ⟨hstate₀, herr₀⟩ := runPages_allOk
      (fun n => ApiCall.ListAffiliatedRepositories (.user tok) ["owner", "collaborator"] n)
      (fun acc xs => addRepoToUserPerms acc (xs.map Repository.ID))
      (p.client.ListAffiliatedRepositories (.user tok) ["owner", "collaborator"])
      1 [] [] hdirok
    have hndl : dl.Nodup := by
      rw [← hdl]
      exact runPages_inv _ _ (fun s : List RepoID => s.Nodup) _ 1 [] []
        (fun s' xs _ hs => nodup_addRepoToUserPerms _ _ hs) List.nodup_nil
    simp only [fetchUserPermsByToken, hgc, Option.isSome_some, if_true, herr₀,
      Bool.false_eq_true, if_false, hdisc, hdl]
    refine ⟨?_, ?_, hndl, ?_⟩
    · trivial
    · trivial
    · intro x
      rw [← hdl, hstate₀, foldl_pages_mem]
      simp only [List.not_mem_nil, false_or]
      exact mem_map_pageItems Repository.ID hdirok x
  · intro p r opts owner name cache cache₁ tr₁ gs e dl hh hsplit hgc hdirok hdl hdisc
    obtain ⟨hstate₀, herr₀⟩ := runPages_allOk
      (fun n => ApiCall.ListRepositoryCollaborators Cred.base owner name "direct" n)
      (fun acc xs => addUserToRepoPerms acc (xs.map (fun u => toString u.DatabaseID)))
      (p.client.ListRepositoryCollaborators Cred.base owner name "direct") 1 [] [] hdirok
    have hndl : dl.Nodup := by
      rw [← hdl]
      exact runPages_inv _ _ (fun s : List AccountID => s.Nodup) _ 1 [] []
        (fun s' xs _ hs => nodup_addUserToRepoPerms _ _ hs) List.nodup_nil
    simp only [FetchRepoPerms, hh, if_pos, hsplit, hgc, Option.isSome_some, if_true,
      herr₀, Bool.false_eq_true, if_false, hdisc, hdl]
    refine ⟨?_, ?_, hndl, ?_⟩
    · trivial
    · trivial
    · intro x
      rw [← hdl, hstate₀, foldl_cpages_mem]
      simp only [List.not_mem_nil, false_or]
      exact mem_map_pageItems (fun u => toString u.DatabaseID) hdirok x

/-- Witness for C4 at a concrete provider whose second direct-affiliation
page fails: an error is reported. -/
theorem partialFailure_preservesProgress_witness :
    (FetchUserPerms
      ⟨"urn", "sid", "github", "github.com",
        { emptyClient with
          ListAffiliatedRepositories :=
            fun _ _ => [some [⟨"1"⟩], none, some [⟨"2"⟩]] },
        none⟩
      (some ⟨"7", "sid", "github", some "tok"⟩) ⟨false⟩).err.isSome = true := by
  exact (partialFailure_preservesProgress.1
    ⟨"urn", "sid", "github", "github.com",
      { emptyClient with
        ListAffiliatedRepositories :=
          fun _ _ => [some [⟨"1"⟩], none, some [⟨"2"⟩]] },
      none⟩
    ⟨"7", "sid", "github", some "tok"⟩ ⟨false⟩ "tok"
    [some [⟨"1"⟩]] [some [⟨"2"⟩]]
    (by decide) rfl (by decide) (by decide)).1

/-! ## C1: admin scoping for repositories of restrictive organizations -/

theorem mem_runPages_collab (mk : Nat → ApiCall) (pages : Paged Collaborator)
    (init : List AccountID) :
    ∀ x ∈ (runPages mk
        (fun acc xs => addUserToRepoPerms acc (xs.map (fun u => toString u.DatabaseID)))
        pages 1 init []).1,
      x ∈ init ∨ x ∈ (pageItems pages).map (fun u => toString u.DatabaseID) := by
  refine runPages_inv mk _ (fun s : List AccountID =>
      ∀ x ∈ s, x ∈ init ∨ x ∈ (pageItems pages).map (fun u => toString u.DatabaseID))
    pages 1 init [] ?_ ?_
  · intro s' xs hmem hs x hx
    rcases (mem_addUserToRepoPerms x s' (xs.map (fun u => toString u.DatabaseID))).mp hx with
      h | h
    · exact hs x h
    · rcases List.mem_map.mp h with ⟨u, hu, rfl⟩
      exact Or.inr (List.mem_map.mpr ⟨u, mem_pageItems hmem hu, rfl⟩)
  · intro x hx
    exact Or.inl hx

theorem mem_runPages_members (mk : Nat → ApiCall) (pages : Paged Collaborator)
    (acc0 : List AccountID) (init : List AccountID) :
    ∀ x ∈ (runPages mk
        (fun (s : List AccountID × List AccountID) xs =>
          (s.1 ++ xs.map (fun u => toString u.DatabaseID),
            addUserToRepoPerms s.2 (xs.map (fun u => toString u.DatabaseID))))
        pages 1 (acc0, init) []).1.2,
      x ∈ init ∨ x ∈ (pageItems pages).map (fun u => toString u.DatabaseID) := by
  refine runPages_inv mk _ (fun s : List AccountID × List AccountID =>
      ∀ x ∈ s.2, x ∈ init ∨ x ∈ (pageItems pages).map (fun u => toString u.DatabaseID))
    pages 1 (acc0, init) [] ?_ ?_
  · intro s' xs hmem hs x hx
    rcases (mem_addUserToRepoPerms x s'.2 (xs.map (fun u => toString u.DatabaseID))).mp hx with
      h | h
    · exact hs x h
    · rcases List.mem_map.mp h with ⟨u, hu, rfl⟩
      exact Or.inr (List.mem_map.mpr ⟨u, mem_pageItems hmem hu, rfl⟩)
  · intro x hx
    exact Or.inl hx

theorem foldl_syncRepoGroup (inv : Bool) (owner : String) :
    ∀ (ts : List Team) (st : GroupsCache × List repoAffiliatedGroup),
      st.1 = [] →
      (ts.foldl (fun st t => syncRepoGroup st.1 st.2 inv owner t.Slug false) st).1 = [] ∧
      ∀ rg ∈ (ts.foldl (fun st t => syncRepoGroup st.1 st.2 inv owner t.Slug false) st).2,
        rg ∈ st.2 ∨ ∃ t ∈ ts, rg = ⟨⟨owner, t.Slug, [], []⟩, false⟩ := by
  intro ts
  induction ts with
  | nil => intro st h1; exact ⟨h1, fun rg hrg => Or.inl hrg⟩
  | cons t rest ih =>
    intro st h1
    have hsync : syncRepoGroup st.1 st.2 inv owner t.Slug false
        = ([], st.2 ++ [⟨⟨owner, t.Slug, [], []⟩, false⟩]) := by
      rw [h1]
      simp [syncRepoGroup, getGroup]
    simp only [List.foldl_cons, hsync]
    obtain ⟨ha, hb⟩ := ih ([], st.2 ++ [⟨⟨owner, t.Slug, [], []⟩, false⟩]) rfl
    refine ⟨ha, ?_⟩
    intro rg hrg
    rcases hb rg hrg with h | ⟨t', ht', rfl⟩
    · rcases List.mem_append.mp h with h' | h'
      · exact Or.inl h'
      · exact Or.inr ⟨t, List.mem_cons_self _ _, List.mem_singleton.mp h'⟩
    · exact Or.inr ⟨t', List.mem_cons_of_mem _ ht', rfl⟩

theorem repoGroups_restrictive (client : DirClient) (owner name : String) (inv : Bool)
    (org : OrgDetails) (hOrg : client.GetOrganization Cred.base owner = .ok org)
    (hperm : canViewOrgRepos ⟨org⟩ = false)
    (hslug : ∀ t ∈ pageItems (client.ListRepositoryTeams Cred.base owner name),
      t.Slug ≠ "") :
    ∀ rg ∈ (getRepoAffiliatedGroups client [] owner name inv).groups,
      rg.toCachedGroup.Repositories = [] ∧ rg.toCachedGroup.Users = [] ∧
      ((rg.toCachedGroup.Team = "" ∧ rg.adminsOnly = true) ∨
       (rg.toCachedGroup.Team
          ∈ (pageItems (client.ListRepositoryTeams Cred.base owner name)).map Team.Slug ∧
        rg.toCachedGroup.Team ≠ "")) := by
  intro rg hrg
  simp only [getRepoAffiliatedGroups, hOrg, hperm, Bool.false_eq_true, if_false] at hrg
  have hsync : syncRepoGroup [] [] inv owner "" true
      = ([], [⟨⟨owner, "", [], []⟩, true⟩]) := by
    simp [syncRepoGroup, getGroup]
  rw [hsync] at hrg
  have := runPages_inv (fun n => ApiCall.ListRepositoryTeams Cred.base owner name n)
    (fun (st : GroupsCache × List repoAffiliatedGroup) ts =>
      ts.foldl (fun st t => syncRepoGroup st.1 st.2 inv owner t.Slug false) st)
    (fun st : GroupsCache × List repoAffiliatedGroup =>
      st.1 = [] ∧ ∀ rg ∈ st.2,
        rg.toCachedGroup.Repositories = [] ∧ rg.toCachedGroup.Users = [] ∧
        ((rg.toCachedGroup.Team = "" ∧ rg.adminsOnly = true) ∨
         (rg.toCachedGroup.Team
            ∈ (pageItems (client.ListRepositoryTeams Cred.base owner name)).map Team.Slug ∧
          rg.toCachedGroup.Team ≠ "")))
    (client.ListRepositoryTeams Cred.base owner name) 1
    ([], [⟨⟨owner, "", [], []⟩, true⟩]) [] ?_ ?_
  · exact this.2 rg hrg
  · intro s' ts hmem hs
    obtain ⟨h1, h2⟩ := hs
    obtain ⟨ha, hb⟩ := foldl_syncRepoGroup inv owner ts s' h1
    refine ⟨ha, ?_⟩
    intro rg' hrg'
    rcases hb rg' hrg' with h | ⟨t, ht, rfl⟩
    · exact h2 rg' h
    · have htpage : t ∈ pageItems (client.ListRepositoryTeams Cred.base owner name) :=
        mem_pageItems hmem ht
      exact ⟨rfl, rfl, Or.inr ⟨List.mem_map.mpr ⟨t, htpage, rfl⟩, hslug t htpage⟩⟩
  · refine ⟨rfl, ?_⟩
    intro rg' hrg'
    rcases List.mem_singleton.mp hrg' with rfl
    exact ⟨rfl, rfl, Or.inl ⟨rfl, rfl⟩⟩

theorem mem_processRepoGroup_scoped (client : DirClient) (owner : String)
    (repoID : RepoID) (userIDs : List AccountID) (cache : GroupsCache)
    (rg : repoAffiliatedGroup) (slugs : List String)
    (hRep : rg.toCachedGroup.Repositories = [])
    (hUsr : rg.toCachedGroup.Users = [])
    (hCase : (rg.toCachedGroup.Team = "" ∧ rg.adminsOnly = true) ∨
             (rg.toCachedGroup.Team ∈ slugs ∧ rg.toCachedGroup.Team ≠ "")) :
    ∀ x ∈ (processRepoGroup client owner repoID userIDs cache rg).acc,
      x ∈ userIDs ∨
      x ∈ (pageItems (client.ListOrganizationMembers Cred.base owner true)).map
        (fun u => toString u.DatabaseID) ∨
      ∃ t ∈ slugs,
        x ∈ (pageItems (client.ListTeamMembers Cred.base owner t)).map
          (fun u => toString u.DatabaseID) := by
  intro x hx
  have hcond : ¬ (rg.toCachedGroup.Repositories ≠ [] ∧
      repoID ∉ rg.toCachedGroup.Repositories) := by
    simp [hRep]
  rcases hCase with ⟨hT, hA⟩ | ⟨hTs, hTne⟩
  · simp only [processRepoGroup, if_neg hcond, hUsr, hT, hA, ne_eq,
      not_true_eq_false, Bool.false_eq_true, if_false, if_true] at hx
    split at hx
    · rcases mem_runPages_members _ _ [] userIDs x hx with h | h
      · exact Or.inl h
      · exact Or.inr (Or.inl h)
    · rcases mem_runPages_members _ _ [] userIDs x hx with h | h
      · exact Or.inl h
      · exact Or.inr (Or.inl h)
  · simp only [processRepoGroup, if_neg hcond, hUsr, if_neg hTne, ne_eq,
      not_true_eq_false, Bool.false_eq_true, if_false] at hx
    split at hx
    · rcases mem_runPages_members _ _ [] userIDs x hx with h | h
      · exact Or.inl h
      · exact Or.inr (Or.inr ⟨rg.toCachedGroup.Team, hTs, h⟩)
    · rcases mem_runPages_members _ _ [] userIDs x hx with h | h
      · exact Or.inl h
      · exact Or.inr (Or.inr ⟨rg.toCachedGroup.Team, hTs, h⟩)

theorem mem_processRepoGroups_scoped (client : DirClient) (owner : String)
    (repoID : RepoID) (slugs : List String) :
    ∀ (gs : List repoAffiliatedGroup) (userIDs : List AccountID) (cache : GroupsCache),
      (∀ rg ∈ gs,
        rg.toCachedGroup.Repositories = [] ∧ rg.toCachedGroup.Users = [] ∧
        ((rg.toCachedGroup.Team = "" ∧ rg.adminsOnly = true) ∨
         (rg.toCachedGroup.Team ∈ slugs ∧ rg.toCachedGroup.Team ≠ ""))) →
      ∀ x ∈ (processRepoGroups client owner repoID gs userIDs cache).acc,
        x ∈ userIDs ∨
        x ∈ (pageItems (client.ListOrganizationMembers Cred.base owner true)).map
          (fun u => toString u.DatabaseID) ∨
        ∃ t ∈ slugs,
          x ∈ (pageItems (client.ListTeamMembers Cred.base owner t)).map
            (fun u => toString u.DatabaseID) := by
  intro gs
  induction gs with
  | nil => intro userIDs cache _ x hx; exact Or.inl hx
  | cons rg rest ih =>
    intro userIDs cache hQ x hx
    obtain ⟨hRep, hUsr, hCase⟩ := hQ rg (List.mem_cons_self _ _)
    have hQrest := fun rg' h => hQ rg' (List.mem_cons_of_mem _ h)
    simp only [processRepoGroups] at hx
    split at hx
    · exact mem_processRepoGroup_scoped client owner repoID userIDs cache rg slugs
        hRep hUsr hCase x hx
    · rcases ih _ _ hQrest x hx with h | h | h
      · exact mem_processRepoGroup_scoped client owner repoID userIDs cache rg slugs
          hRep hUsr hCase x h
      · exact Or.inr (Or.inl h)
      · exact Or.inr (Or.inr h)

/-- C1: for a repository of an organization whose default permission is
restrictive (does not grant read to all members), FetchRepoPerms starting
from a cold cache only ever returns accounts that are direct collaborators,
organization admins (the org group is registered admins-only and its member
enumeration is issued with the admins-only flag), or members of a team
explicitly associated with the repository. Ordinary non-admin members are
never included. The host is assumed to list teams with non-empty slugs, and
the admins-only member listing to return only admins. -/
theorem adminScoping_restrictiveOrg :
    ∀ (p : Provider) (r : ExtRepository) (opts : FetchPermsOptions)
      (owner name : String) (org : OrgDetails)
      (isAdmin isCollab : AccountID → Prop)
      (isTeamMember : String → AccountID → Prop),
      IsHostOfRepo p r →
      p.groupsCache = some [] →
      SplitRepositoryNameWithOwner (goTrim (goTrim r.URI p.hostname) "/")
        = .ok (owner, name) →
      p.client.GetOrganization Cred.base owner = .ok org →
      canViewOrgRepos ⟨org⟩ = false →
      (∀ t ∈ pageItems (p.client.ListRepositoryTeams Cred.base owner name),
        t.Slug ≠ "") →
      (∀ x ∈ (pageItems (p.client.ListOrganizationMembers Cred.base owner true)).map
          (fun u => toString u.DatabaseID), isAdmin x) →
      (∀ x ∈ (pageItems
          (p.client.ListRepositoryCollaborators Cred.base owner name "direct")).map
          (fun u => toString u.DatabaseID), isCollab x) →
      (∀ t x, x ∈ (pageItems (p.client.ListTeamMembers Cred.base owner t)).map
          (fun u => toString u.DatabaseID) → isTeamMember t x) →
      ∀ l, (FetchRepoPerms p (some r) opts).users = some l →
        ∀ x ∈ l, isCollab x ∨ isAdmin x ∨
          ∃ t ∈ (pageItems (p.client.ListRepositoryTeams Cred.base owner name)).map
            Team.Slug, isTeamMember t x := by
  intro p r opts owner name org isAdmin isCollab isTeamMember
    hh hgc hsplit hOrg hperm hslug hAdm hCol hTeam l hl x hx
  have hcollab : ∀ y ∈ (runPages
      (fun n => ApiCall.ListRepositoryCollaborators Cred.base owner name "direct" n)
      (fun acc xs => addUserToRepoPerms acc (xs.map (fun u => toString u.DatabaseID)))
      (p.client.ListRepositoryCollaborators Cred.base owner name "direct")
      1 [] []).1, isCollab y := by
    intro y hy
    rcases mem_runPages_collab _ _ [] y hy with h | h
    · cases h
    · exact hCol y h
  simp only [FetchRepoPerms, hh, if_pos, hsplit, hgc, Option.isSome_some, if_true] at hl
  split at hl
  · obtain rfl : l = _ := Option.some_inj.mp hl.symm
    exact Or.inl (hcollab x hx)
  · split at hl
    · obtain rfl : l = _ := Option.some_inj.mp hl.symm
      exact Or.inl (hcollab x hx)
    · obtain rfl : l = _ := Option.some_inj.mp hl.symm
      have hQ := repoGroups_restrictive p.client owner name opts.InvalidateCaches
        org hOrg hperm hslug
      rcases mem_processRepoGroups_scoped p.client owner r.ID
        ((pageItems (p.client.ListRepositoryTeams Cred.base owner name)).map Team.Slug)
        (getRepoAffiliatedGroups p.client [] owner name opts.InvalidateCaches).groups
        _ _ hQ x hx with h | h | ⟨t, ht, h⟩
      · exact Or.inl (hcollab x h)
      · exact Or.inr (Or.inl (hAdm x h))
      · exact Or.inr (Or.inr ⟨t, ht, hTeam t x h⟩)

/-- Witness for C1 at a concrete restrictive organization: account "2" (an
admin) is authorized through the admins-only org group. -/
theorem adminScoping_restrictiveOrg_witness :
    ("2" : AccountID) ∈ ["1"] ∨ ("2" : AccountID) ∈ ["2"] ∨
      ∃ t ∈ (pageItems (({ emptyClient with
          GetOrganization := fun _ _ => .ok ⟨"acme", false⟩,
          ListRepositoryCollaborators := fun _ _ _ _ => [some [⟨1⟩]],
          ListOrganizationMembers :=
            fun _ _ adminsOnly => if adminsOnly then [some [⟨2⟩]] else [some [⟨2⟩, ⟨3⟩]],
          ListTeamMembers := fun _ _ _ => [some [⟨4⟩]],
          ListRepositoryTeams :=
            fun _ _ _ => [some [⟨"dev", 1, some ⟨"acme"⟩⟩]] } :
          DirClient).ListRepositoryTeams Cred.base "acme" "repo")).map Team.Slug,
        ("2" : AccountID) ∈ ["4"] := by
  exact adminScoping_restrictiveOrg
    ⟨"urn", "sid", "github", "github.com",
      { emptyClient with
        GetOrganization := fun _ _ => .ok ⟨"acme", false⟩,
        ListRepositoryCollaborators := fun _ _ _ _ => [some [⟨1⟩]],
        ListOrganizationMembers :=
          fun _ _ adminsOnly => if adminsOnly then [some [⟨2⟩]] else [some [⟨2⟩, ⟨3⟩]],
        ListTeamMembers := fun _ _ _ => [some [⟨4⟩]],
        ListRepositoryTeams := fun _ _ _ => [some [⟨"dev", 1, some ⟨"acme"⟩⟩]] },
      some []⟩
    ⟨"R", "github.com/acme/repo", "sid", "github"⟩ ⟨false⟩ "acme" "repo" ⟨"acme", false⟩
    (fun y => y ∈ ["2"]) (fun y => y ∈ ["1"]) (fun _ y => y ∈ ["4"])
    (by decide) rfl (by decide) rfl rfl (by decide) (by decide) (by decide)
    (by
      intro t y h
      rcases List.mem_map.mp h with ⟨u, hu, rfl⟩
      have hu' : u ∈ ([⟨4⟩] : List Collaborator) := by simpa [pageItems] using hu
      rcases List.mem_singleton.mp hu' with rfl
      decide)
    ["1", "2", "4"] (by decide) "2" (by decide)
